import Mathlib

/-!
Verification of the void-indexing retrieval engine.

This file gives a shallow embedding of the TypeScript sources of the
`void-indexing` library (TF-IDF sparse index, chunking strategies, the
semantic-search engine, the multi-factor ranker, the prompt builder, the
context-key service and the `VoidIndexing` orchestrator facade) and settles
a list of claims about them.

Conventions of the embedding:
* JavaScript `Map` objects are modelled as association lists
  (`List (K × V)`) with at most one entry per key; `Map.set` replaces an
  existing entry in place or appends a fresh one, `Map.delete` removes the
  entry, mirroring the observable behaviour of the source.
* JavaScript numbers are modelled as `ℚ` (all arithmetic appearing in the
  claims is exact); `Math.log` and `Math.sqrt` are transcendental, so the
  embedding takes them as explicit function parameters or uses an exact
  stand-in on the perfect squares actually reached by the concrete inputs.
* `async` functions contain no real concurrency: a cancellation token is a
  `Bool` (`isCancellationRequested`), threaded to every check the source
  performs; operations that can `throw` return `Option` (`none` = throw).
-/

namespace VoidIndexing

/-! ## Association-list maps (model of the JavaScript `Map`) -/

/-- Lookup in an association list, first entry wins (JS maps hold at most
one entry per key, which the operations below preserve). -/
def lookupA {K V : Type} [DecidableEq K] (m : List (K × V)) (k : K) : Option V :=
  match m with
  | [] => none
  | (k', v) :: rest => if k = k' then some v else lookupA rest k

/-- `Map.set`: replace the entry for `k` in place if present, else append. -/
def setA {K V : Type} [DecidableEq K] (m : List (K × V)) (k : K) (v : V) :
    List (K × V) :=
  match m with
  | [] => [(k, v)]
  | (k', v') :: rest =>
    if k = k' then (k, v) :: rest else (k', v') :: setA rest k v

/-- `Map.delete`: remove the entry for `k`. -/
def eraseA {K V : Type} [DecidableEq K] (m : List (K × V)) (k : K) :
    List (K × V) :=
  match m with
  | [] => []
  | (k', v') :: rest =>
    if k = k' then rest else (k', v') :: eraseA rest k

/-- The keys of an association list. -/
def keysA {K V : Type} (m : List (K × V)) : List K := m.map Prod.fst

theorem lookupA_setA_self {K V : Type} [DecidableEq K]
    (m : List (K × V)) (k : K) (v : V) : lookupA (setA m k v) k = some v := by
  induction m with
  | nil => simp [setA, lookupA]
  | cons hd tl ih =>
    obtain ⟨k', v'⟩ := hd
    by_cases h : k = k' <;> simp [setA, lookupA, h, ih]

theorem lookupA_setA_ne {K V : Type} [DecidableEq K]
    (m : List (K × V)) (k k' : K) (v : V) (h : k' ≠ k) :
    lookupA (setA m k v) k' = lookupA m k' := by
  induction m with
  | nil => simp [setA, lookupA, h]
  | cons hd tl ih =>
    obtain ⟨k₀, v₀⟩ := hd
    by_cases hk : k = k₀
    · subst hk; simp [setA, lookupA, h]
    · by_cases hk' : k' = k₀ <;> simp [setA, lookupA, hk, hk', ih]

theorem lookupA_eq_none_of_not_mem {K V : Type} [DecidableEq K]
    (m : List (K × V)) (k : K) (h : k ∉ keysA m) : lookupA m k = none := by
  induction m with
  | nil => simp [lookupA]
  | cons hd tl ih =>
    obtain ⟨k₀, v₀⟩ := hd
    simp only [keysA, List.map_cons, List.mem_cons, not_or] at h
    simp [lookupA, h.1, ih h.2]

theorem lookupA_eraseA_self {K V : Type} [DecidableEq K]
    (m : List (K × V)) (k : K) (hnd : (keysA m).Nodup) :
    lookupA (eraseA m k) k = none := by
  induction m with
  | nil => simp [eraseA, lookupA]
  | cons hd tl ih =>
    obtain ⟨k₀, v₀⟩ := hd
    simp only [keysA, List.map_cons, List.nodup_cons] at hnd
    by_cases hk : k = k₀
    · subst hk
      simpa [eraseA] using lookupA_eq_none_of_not_mem tl k hnd.1
    · simp [eraseA, lookupA, hk, ih hnd.2]

theorem lookupA_eraseA_ne {K V : Type} [DecidableEq K]
    (m : List (K × V)) (k k' : K) (h : k' ≠ k) :
    lookupA (eraseA m k) k' = lookupA m k' := by
  induction m with
  | nil => simp [eraseA]
  | cons hd tl ih =>
    obtain ⟨k₀, v₀⟩ := hd
    by_cases hk : k = k₀
    · subst hk; simp [eraseA, lookupA, h]
    · by_cases hk' : k' = k₀ <;> simp [eraseA, lookupA, hk, hk', ih]

/-! ## Keys and nodup bookkeeping for association lists -/

theorem keysA_setA {K V : Type} [DecidableEq K]
    (m : List (K × V)) (k : K) (v : V) :
    keysA (setA m k v) = if k ∈ keysA m then keysA m else keysA m ++ [k] := by
  induction m with
  | nil => simp [setA, keysA]
  | cons hd tl ih =>
    obtain ⟨k₀, v₀⟩ := hd
    by_cases hk : k = k₀
    · subst hk; simp [setA, keysA]
    · simp only [setA, if_neg hk, keysA, List.map_cons, List.mem_cons]
      simp only [keysA] at ih
      rw [ih]
      by_cases hm : k ∈ tl.map Prod.fst <;> simp [hm, hk]

theorem nodup_keysA_setA {K V : Type} [DecidableEq K]
    (m : List (K × V)) (k : K) (v : V) (h : (keysA m).Nodup) :
    (keysA (setA m k v)).Nodup := by
  rw [keysA_setA]
  by_cases hm : k ∈ keysA m
  · simpa [hm] using h
  · rw [if_neg hm, List.nodup_append]
    refine ⟨h, List.nodup_singleton k, ?_⟩
    intro a ha hb
    rw [List.mem_singleton] at hb
    subst hb
    exact hm ha

theorem keysA_eraseA_sublist {K V : Type} [DecidableEq K]
    (m : List (K × V)) (k : K) : (keysA (eraseA m k)).Sublist (keysA m) := by
  induction m with
  | nil => simp [eraseA, keysA]
  | cons hd tl ih =>
    obtain ⟨k₀, v₀⟩ := hd
    by_cases hk : k = k₀
    · subst hk
      simp only [eraseA, if_pos rfl, keysA, List.map_cons]
      exact List.sublist_cons_of_sublist _ (List.Sublist.refl _)
    · simpa [eraseA, hk, keysA] using ih.cons₂ k₀

theorem nodup_keysA_eraseA {K V : Type} [DecidableEq K]
    (m : List (K × V)) (k : K) (h : (keysA m).Nodup) :
    (keysA (eraseA m k)).Nodup :=
  (keysA_eraseA_sublist m k).nodup h

theorem lookupA_isSome_iff_mem {K V : Type} [DecidableEq K]
    (m : List (K × V)) (k : K) : (lookupA m k).isSome ↔ k ∈ keysA m := by
  induction m with
  | nil => simp [lookupA, keysA]
  | cons hd tl ih =>
    obtain ⟨k₀, v₀⟩ := hd
    by_cases hk : k = k₀ <;> simp [lookupA, keysA, hk, ih]

theorem lookupA_eq_none_iff_not_mem {K V : Type} [DecidableEq K]
    (m : List (K × V)) (k : K) : lookupA m k = none ↔ k ∉ keysA m := by
  rw [← lookupA_isSome_iff_mem]
  cases lookupA m k <;> simp

/-! ## TF-IDF sparse index (`src/index/tfIdf.ts`)

The tokenizer models the regular expression
`\b\p{Letter}[\p{Letter}\d]{2,}\b` (with the camelCase refinement applied to
each match) over the character classes of `Char.isAlpha`/`Char.isDigit`; JS
word boundaries `\b` are with respect to `[A-Za-z0-9_]`, so a maximal run of
word characters produces a match exactly when it contains no underscore, its
first character is a letter, and it is at least three characters long. -/

/-- A JS word character (`\w`), which determines `\b` boundaries. -/
def isWordChar (c : Char) : Bool := c.isAlpha || c.isDigit || c = '_'

/-- Helper for `wordRuns`: `cur` is the word-character run read so far,
in reverse. -/
def wordRunsAux (cs : List Char) (cur : List Char) : List (List Char) :=
  match cs with
  | [] => if cur.isEmpty then [] else [cur.reverse]
  | c :: rest =>
    if isWordChar c then
      wordRunsAux rest (c :: cur)
    else if cur.isEmpty then
      wordRunsAux rest []
    else
      cur.reverse :: wordRunsAux rest []

/-- Split a string into the maximal runs of word characters. -/
def wordRuns (cs : List Char) : List (List Char) :=
  wordRunsAux cs []

/-- Whether a maximal word-character run is matched by
`\b\p{Letter}[\p{Letter}\d]{2,}\b`. -/
def runMatches (run : List Char) : Bool :=
  match run with
  | [] => false
  | c :: rest => c.isAlpha && rest.all (fun d => d.isAlpha || d.isDigit) &&
      decide (3 ≤ run.length)

/-- `word.replace(/([a-z])([A-Z])/g, '$1 $2').split(/\s+/g)`: split a word at
every lowercase→uppercase transition. -/
def splitCamel (cs : List Char) : List (List Char) :=
  match cs with
  | [] => []
  | [c] => [[c]]
  | a :: b :: rest =>
    let tailParts := splitCamel (b :: rest)
    if a.isLower ∧ b.isUpper then
      [a] :: tailParts
    else
      match tailParts with
      | [] => [[a]]
      | p :: ps => (a :: p) :: ps

/-- `/\p{Letter}{3,}/gu.test(part)`: three consecutive letters somewhere. -/
def hasThreeLetters (cs : List Char) : Bool :=
  match cs with
  | a :: b :: c :: rest =>
    (a.isAlpha && b.isAlpha && c.isAlpha) || hasThreeLetters (b :: c :: rest)
  | _ => false

/-- The terms yielded for one regex match: the lowercased word, followed by
its camelCase parts of length `> 2` containing three consecutive letters
(only when the word splits into more than one part). -/
def termsOfWord (run : List Char) : List String :=
  let word := String.mk (run.map Char.toLower)
  let camelParts := splitCamel run
  if 1 < camelParts.length then
    word :: (camelParts.filter
        (fun p => decide (2 < p.length) && hasThreeLetters p)).map
      (fun p => String.mk (p.map Char.toLower))
  else
    [word]

/-- `TfIdfCalculator.splitTerms`. -/
def splitTerms (input : String) : List String :=
  ((wordRuns input.data).filter runMatches).flatMap termsOfWord

/-- `countMapFrom`: count occurrences of each value. -/
def countMapFrom (values : List String) : List (String × ℕ) :=
  values.foldl (fun m v => setA m v ((lookupA m v).getD 0 + 1)) []

/-- `TfIdfCalculator.termFrequencies`. -/
def termFrequencies (input : String) : List (String × ℕ) :=
  countMapFrom (splitTerms input)

/-- A chunk of a document with its term-frequency data
(`DocumentChunkEntry`). -/
structure DocumentChunkEntry where
  text : String
  tf : List (String × ℕ)
deriving DecidableEq

/-- `TfIdfDocument`. -/
structure TfIdfDocument where
  key : String
  textChunks : List String
deriving DecidableEq

/-- `TfIdfScore`. -/
structure TfIdfScore where
  key : String
  score : ℚ
deriving DecidableEq

/-- The private mutable state of a `TfIdfCalculator`. -/
structure TfIdfState where
  chunkCount : ℤ
  chunkOccurrences : List (String × ℤ)
  documents : List (String × List DocumentChunkEntry)
deriving DecidableEq

/-- A freshly constructed `TfIdfCalculator`. -/
def TfIdfState.initial : TfIdfState := ⟨0, [], []⟩

/-- The occurrence-counter decrement of `deleteDocument` for one term:
subtract one, removing the entry when it reaches zero. -/
def occDecTerm (occ : List (String × ℤ)) (t : String) : List (String × ℤ) :=
  match lookupA occ t with
  | some n => if n - 1 ≤ 0 then eraseA occ t else setA occ t (n - 1)
  | none => occ

/-- `deleteDocument`'s inner loop over `chunk.tf.keys()`. -/
def occDecChunk (occ : List (String × ℤ)) (c : DocumentChunkEntry) :
    List (String × ℤ) :=
  c.tf.foldl (fun o p => occDecTerm o p.1) occ

/-- The occurrence-counter increment of `updateDocuments` for one term. -/
def occIncTerm (occ : List (String × ℤ)) (t : String) : List (String × ℤ) :=
  setA occ t ((lookupA occ t).getD 0 + 1)

/-- `updateDocuments`' inner loop over `tf.keys()`. -/
def occIncChunk (occ : List (String × ℤ)) (c : DocumentChunkEntry) :
    List (String × ℤ) :=
  c.tf.foldl (fun o p => occIncTerm o p.1) occ

/-- `TfIdfCalculator.deleteDocument`. -/
def deleteDocument (key : String) (s : TfIdfState) : TfIdfState :=
  match lookupA s.documents key with
  | none => s
  | some chunks =>
    { documents := eraseA s.documents key
      chunkCount := s.chunkCount - chunks.length
      chunkOccurrences := chunks.foldl occDecChunk s.chunkOccurrences }

/-- The chunk list built for one document by `updateDocuments`. -/
def makeChunks (doc : TfIdfDocument) : List DocumentChunkEntry :=
  doc.textChunks.map (fun text => DocumentChunkEntry.mk text (termFrequencies text))

/-- The insertion step of `updateDocuments` for one document. -/
def insertDocument (st : TfIdfState) (doc : TfIdfDocument) : TfIdfState :=
  let chunks := makeChunks doc
  { chunkCount := st.chunkCount + chunks.length
    chunkOccurrences := chunks.foldl occIncChunk st.chunkOccurrences
    documents := setA st.documents doc.key chunks }

/-- `TfIdfCalculator.updateDocuments`: delete every key in the batch, then
insert each document, incrementing the per-term chunk-occurrence counters
once per chunk containing the term. -/
def updateDocuments (docs : List TfIdfDocument) (s : TfIdfState) : TfIdfState :=
  let s1 := docs.foldl (fun st d => deleteDocument d.key st) s
  docs.foldl insertDocument s1

/-- `TfIdfCalculator.computeIdf`, with `Math.log` as parameter `lg`. -/
def computeIdf (lg : ℚ → ℚ) (s : TfIdfState) (term : String) : ℚ :=
  let occ : ℤ := (lookupA s.chunkOccurrences term).getD 0
  if 0 < occ then lg (((s.chunkCount : ℚ) + 1) / (occ : ℚ)) else 0

/-- `TfIdfCalculator.computeTfidf`: keep the terms of positive IDF. -/
def computeTfidf (lg : ℚ → ℚ) (s : TfIdfState) (tf : List (String × ℕ)) :
    List (String × ℚ) :=
  tf.filterMap (fun p =>
    let idf := computeIdf lg s p.1
    if 0 < idf then some (p.1, (p.2 : ℚ) * idf) else none)

/-- `TfIdfCalculator.computeEmbedding`. -/
def computeEmbedding (lg : ℚ → ℚ) (s : TfIdfState) (input : String) :
    List (String × ℚ) :=
  computeTfidf lg s (termFrequencies input)

/-- `TfIdfCalculator.computeSimilarityScore`. The `idfCache` of the source is
pure memoization of `computeIdf` within one call (the state is not mutated
while scoring), so it is dropped; `if (!chunkTf) continue` also skips a zero
count. -/
def computeSimilarityScore (lg : ℚ → ℚ) (s : TfIdfState)
    (chunk : DocumentChunkEntry) (queryEmbedding : List (String × ℚ)) : ℚ :=
  queryEmbedding.foldl (fun sum p =>
    match lookupA chunk.tf p.1 with
    | none => sum
    | some n => if n = 0 then sum else sum + ((n : ℚ) * computeIdf lg s p.1) * p.2) 0

/-- The document loop of `calculateScores`: the token is checked before each
document; one score is pushed per chunk with positive similarity. -/
def calculateScoresGo (lg : ℚ → ℚ) (s : TfIdfState) (token : Bool)
    (emb : List (String × ℚ)) :
    List (String × List DocumentChunkEntry) → List TfIdfScore
  | [] => []
  | (key, chunks) :: rest =>
    if token then []
    else
      (chunks.filterMap (fun c =>
        let score := computeSimilarityScore lg s c emb
        if 0 < score then some ⟨key, score⟩ else none)) ++
      calculateScoresGo lg s token emb rest

/-- `TfIdfCalculator.calculateScores`. -/
def calculateScores (lg : ℚ → ℚ) (query : String) (token : Bool)
    (s : TfIdfState) : List TfIdfScore :=
  calculateScoresGo lg s token (computeEmbedding lg s query) s.documents

/-- Exact stand-in for `Math.log` in closed-instance theorems: it agrees
with the natural logarithm in sign (`x - 1` is positive, zero, negative
exactly when `log x` is, for positive `x`), which is the only property the
scoring claims depend on. -/
def logStandIn (q : ℚ) : ℚ := q - 1

/-! ### Claim C2 -/

/-- The calculator state after indexing one document with key `"doc"` and
the two text chunks `"cat cat"` and `"cat"`. -/
def exC2St : TfIdfState :=
  updateDocuments [⟨"doc", ["cat cat", "cat"]⟩] TfIdfState.initial

theorem exC2St_fields :
    exC2St.chunkOccurrences = [("cat", 2)] ∧ exC2St.chunkCount = 2 ∧
    exC2St.documents =
      [("doc", [⟨"cat cat", [("cat", 2)]⟩, ⟨"cat", [("cat", 1)]⟩])] := by
  decide

/-- C2: the claim states that `calculateScores` yields at most one score per
document key, equal to the maximum over the document's chunks. In the code
the inner loop pushes one entry *per chunk* with positive similarity, all
carrying the document's key — contradicting the class's own documentation
("the score for each document is computed by taking the max score over all
the chunks") and the loop's comment ("For each document, generate one
score"). For the single document `"doc"` with chunks `"cat cat"` and
`"cat"` and the query `"cat"`, two scores keyed `"doc"` are returned
(`1/2` and `1/4` under the sign-faithful `Math.log` stand-in), not one
maximal score. -/
theorem C2_calculateScores_two_scores_per_key :
    calculateScores logStandIn "cat" false exC2St =
      [⟨"doc", 1/2⟩, ⟨"doc", 1/4⟩] ∧
    ¬ ((calculateScores logStandIn "cat" false exC2St).countP
        (fun s => s.key == "doc") ≤ 1) := by
  have hA : termFrequencies "cat cat" = [("cat", 2)] := by decide
  have hB : termFrequencies "cat" = [("cat", 1)] := by decide
  have hmain : calculateScores logStandIn "cat" false exC2St =
      [⟨"doc", 1/2⟩, ⟨"doc", 1/4⟩] := by
    simp only [calculateScores, exC2St_fields.2.2, calculateScoresGo,
      computeEmbedding, hA, hB, computeTfidf, computeIdf,
      computeSimilarityScore, exC2St_fields.1, exC2St_fields.2.1, lookupA,
      logStandIn, List.filterMap, List.foldl, Bool.false_eq_true, if_false]
    norm_num
  refine ⟨hmain, ?_⟩
  rw [hmain]
  decide

/-! ### Claim C6: counter/document consistency of the sparse index -/

/-- Number of chunks of `chunks` whose term-frequency map contains `t`. -/
def contribOf (chunks : List DocumentChunkEntry) (t : String) : ℕ :=
  (chunks.filter (fun c => (lookupA c.tf t).isSome)).length

/-- Number of stored chunks (over all documents) containing term `t`. -/
def occCount (docs : List (String × List DocumentChunkEntry)) (t : String) : ℕ :=
  (docs.map (fun d => contribOf d.2 t)).sum

/-- Total number of stored chunks. -/
def totalChunks (docs : List (String × List DocumentChunkEntry)) : ℕ :=
  (docs.map (fun d => d.2.length)).sum

/-- The canonical occurrence-map entry for a chunk count: terms appearing in
no chunk are absent from the map. -/
def canonicalOcc (n : ℕ) : Option ℤ :=
  if n = 0 then none else some (n : ℤ)

/-- The term contributions of the document stored under key `k`. -/
def docContrib (docs : List (String × List DocumentChunkEntry))
    (k : String) (t : String) : ℕ :=
  match lookupA docs k with
  | some chunks => contribOf chunks t
  | none => 0

/-- Consistency invariant tying the chunk count and the occurrence map to
the stored documents. -/
def WellFormed (s : TfIdfState) : Prop :=
  s.chunkCount = (totalChunks s.documents : ℤ) ∧
  (∀ t, lookupA s.chunkOccurrences t = canonicalOcc (occCount s.documents t)) ∧
  (keysA s.documents).Nodup ∧
  (keysA s.chunkOccurrences).Nodup ∧
  (∀ p ∈ s.documents, ∀ c ∈ p.2, (keysA c.tf).Nodup)

theorem lookupA_some_mem {K V : Type} [DecidableEq K]
    {m : List (K × V)} {k : K} {v : V} (h : lookupA m k = some v) :
    (k, v) ∈ m := by
  induction m with
  | nil => simp [lookupA] at h
  | cons hd tl ih =>
    obtain ⟨k₀, v₀⟩ := hd
    by_cases hk : k = k₀
    · subst hk
      simp only [lookupA, eq_self_iff_true, if_true, Option.some.injEq] at h
      rw [← h]
      exact List.mem_cons_self _ _
    · simp only [lookupA, if_neg hk] at h
      exact List.mem_cons_of_mem _ (ih h)

theorem eraseA_sublist {K V : Type} [DecidableEq K]
    (m : List (K × V)) (k : K) : (eraseA m k).Sublist m := by
  induction m with
  | nil => simp [eraseA]
  | cons hd tl ih =>
    obtain ⟨k₀, v₀⟩ := hd
    by_cases hk : k = k₀
    · subst hk
      simpa [eraseA] using List.sublist_cons_of_sublist _ (List.Sublist.refl _)
    · simpa [eraseA, hk] using ih.cons₂ (k₀, v₀)

theorem setA_fresh {K V : Type} [DecidableEq K]
    (m : List (K × V)) (k : K) (v : V) (h : k ∉ keysA m) :
    setA m k v = m ++ [(k, v)] := by
  induction m with
  | nil => simp [setA]
  | cons hd tl ih =>
    obtain ⟨k₀, v₀⟩ := hd
    simp only [keysA, List.map_cons, List.mem_cons, not_or] at h
    simp [setA, h.1, ih h.2]

theorem countMapFrom_nodup_keysA (l : List String) :
    (keysA (countMapFrom l)).Nodup := by
  have main : ∀ (l : List String) (m : List (String × ℕ)), (keysA m).Nodup →
      (keysA (l.foldl (fun m v => setA m v ((lookupA m v).getD 0 + 1)) m)).Nodup := by
    intro l
    induction l with
    | nil => intro m hm; simpa using hm
    | cons a l ih =>
      intro m hm
      exact ih _ (nodup_keysA_setA _ _ _ hm)
  simpa [countMapFrom] using main l [] (by simp [keysA])

/-- `contribOf` unfolds on a cons cell. -/
theorem contribOf_cons (c : DocumentChunkEntry) (rest : List DocumentChunkEntry)
    (t : String) :
    contribOf (c :: rest) t =
      (if (lookupA c.tf t).isSome then 1 else 0) + contribOf rest t := by
  by_cases h : (lookupA c.tf t).isSome <;>
    simp [contribOf, List.filter_cons, h, Nat.add_comm]

/-- One decrement step of the occurrence map. -/
theorem occDecTerm_spec (occ : List (String × ℤ)) (f : String → ℕ) (t : String)
    (hocc : ∀ u, lookupA occ u = canonicalOcc (f u))
    (hnd : (keysA occ).Nodup) (hf : 1 ≤ f t) :
    (∀ u, lookupA (occDecTerm occ t) u =
      canonicalOcc (f u - if u = t then 1 else 0)) ∧
    (keysA (occDecTerm occ t)).Nodup := by
  have ht := hocc t
  rw [canonicalOcc, if_neg (by omega)] at ht
  simp only [occDecTerm, ht]
  by_cases h1 : f t = 1
  · rw [if_pos (by simp [h1])]
    refine ⟨fun u => ?_, nodup_keysA_eraseA _ _ hnd⟩
    by_cases hu : u = t
    · subst hu
      rw [lookupA_eraseA_self _ _ hnd, if_pos rfl, canonicalOcc,
        if_pos (by omega)]
    · rw [lookupA_eraseA_ne _ _ _ hu, hocc u, if_neg hu, Nat.sub_zero]
  · rw [if_neg (by push_cast; omega)]
    refine ⟨fun u => ?_, nodup_keysA_setA _ _ _ hnd⟩
    by_cases hu : u = t
    · subst hu
      rw [lookupA_setA_self, if_pos rfl, canonicalOcc, if_neg (by omega)]
      congr 1
      push_cast
      omega
    · rw [lookupA_setA_ne _ _ _ _ hu, hocc u, if_neg hu, Nat.sub_zero]

/-- Decrementing once per key of a duplicate-free list. -/
theorem occDecList_spec (L : List String) (occ : List (String × ℤ))
    (f : String → ℕ)
    (hocc : ∀ u, lookupA occ u = canonicalOcc (f u))
    (hnd : (keysA occ).Nodup) (hLnd : L.Nodup)
    (hf : ∀ u ∈ L, 1 ≤ f u) :
    (∀ u, lookupA (L.foldl occDecTerm occ) u =
      canonicalOcc (f u - if u ∈ L then 1 else 0)) ∧
    (keysA (L.foldl occDecTerm occ)).Nodup := by
  induction L generalizing occ f with
  | nil => exact ⟨fun u => by simpa using hocc u, hnd⟩
  | cons a L ih =>
    obtain ⟨hL1, hL2⟩ := List.nodup_cons.mp hLnd
    have h1 := occDecTerm_spec occ f a hocc hnd (hf a (List.mem_cons_self a L))
    have h2 := ih (occDecTerm occ a)
      (fun u => f u - if u = a then 1 else 0) h1.1 h1.2 hL2 (fun u hu => by
        have : u ≠ a := fun h => hL1 (h ▸ hu)
        simpa [this] using hf u (List.mem_cons_of_mem _ hu))
    refine ⟨fun u => ?_, h2.2⟩
    rw [List.foldl_cons, h2.1 u]
    congr 1
    by_cases hu : u = a
    · subst hu
      simp [hL1]
    · simp [hu, List.mem_cons]

/-- Deleting one chunk's term contributions. -/
theorem occDecChunk_spec (c : DocumentChunkEntry) (occ : List (String × ℤ))
    (f : String → ℕ)
    (hocc : ∀ u, lookupA occ u = canonicalOcc (f u))
    (hnd : (keysA occ).Nodup) (htf : (keysA c.tf).Nodup)
    (hf : ∀ u, (if (lookupA c.tf u).isSome then 1 else 0) ≤ f u) :
    (∀ u, lookupA (occDecChunk occ c) u =
      canonicalOcc (f u - if (lookupA c.tf u).isSome then 1 else 0)) ∧
    (keysA (occDecChunk occ c)).Nodup := by
  have hfold : occDecChunk occ c = (keysA c.tf).foldl occDecTerm occ := by
    rw [occDecChunk, keysA, List.foldl_map]
  have h := occDecList_spec (keysA c.tf) occ f hocc hnd htf (fun u hu => by
    have := hf u
    rwa [if_pos ((lookupA_isSome_iff_mem c.tf u).mpr hu)] at this)
  rw [hfold]
  refine ⟨fun u => ?_, h.2⟩
  rw [h.1 u]
  congr 1
  have hiff := lookupA_isSome_iff_mem c.tf u
  by_cases hu : (lookupA c.tf u).isSome
  · rw [if_pos hu, if_pos (hiff.mp hu)]
  · rw [if_neg hu, if_neg fun hm => hu (hiff.mpr hm)]

/-- Deleting the contributions of a whole chunk list. -/
theorem occDecChunks_spec (chunks : List DocumentChunkEntry)
    (occ : List (String × ℤ)) (f : String → ℕ)
    (hocc : ∀ u, lookupA occ u = canonicalOcc (f u))
    (hnd : (keysA occ).Nodup)
    (htf : ∀ c ∈ chunks, (keysA c.tf).Nodup)
    (hge : ∀ u, contribOf chunks u ≤ f u) :
    (∀ u, lookupA (chunks.foldl occDecChunk occ) u =
      canonicalOcc (f u - contribOf chunks u)) ∧
    (keysA (chunks.foldl occDecChunk occ)).Nodup := by
  induction chunks generalizing occ f with
  | nil => exact ⟨fun u => by simpa [contribOf] using hocc u, hnd⟩
  | cons c rest ih =>
    have hge1 : ∀ u, (if (lookupA c.tf u).isSome then 1 else 0) ≤ f u := by
      intro u
      have := hge u
      rw [contribOf_cons] at this
      omega
    have h1 := occDecChunk_spec c occ f hocc hnd
      (htf c (List.mem_cons_self c rest)) hge1
    have h2 := ih (occDecChunk occ c)
      (fun u => f u - if (lookupA c.tf u).isSome then 1 else 0) h1.1 h1.2
      (fun c' hc' => htf c' (List.mem_cons_of_mem _ hc')) (fun u => by
        have := hge u
        rw [contribOf_cons] at this
        beta_reduce
        omega)
    refine ⟨fun u => ?_, h2.2⟩
    rw [List.foldl_cons, h2.1 u, contribOf_cons]
    beta_reduce
    congr 1
    have := hge u
    rw [contribOf_cons] at this
    omega

/-- One increment step of the occurrence map. -/
theorem occIncTerm_spec (occ : List (String × ℤ)) (f : String → ℕ) (t : String)
    (hocc : ∀ u, lookupA occ u = canonicalOcc (f u))
    (hnd : (keysA occ).Nodup) :
    (∀ u, lookupA (occIncTerm occ t) u =
      canonicalOcc (f u + if u = t then 1 else 0)) ∧
    (keysA (occIncTerm occ t)).Nodup := by
  have hgetD : (lookupA occ t).getD 0 = (f t : ℤ) := by
    rw [hocc t, canonicalOcc]
    by_cases h : f t = 0 <;> simp [h]
  refine ⟨fun u => ?_, nodup_keysA_setA _ _ _ hnd⟩
  unfold occIncTerm
  by_cases hu : u = t
  · subst hu
    rw [lookupA_setA_self, if_pos rfl, canonicalOcc, if_neg (by omega), hgetD]
    push_cast
    rfl
  · rw [lookupA_setA_ne _ _ _ _ hu, hocc u, if_neg hu, Nat.add_zero]

/-- Incrementing once per key of a duplicate-free list. -/
theorem occIncList_spec (L : List String) (occ : List (String × ℤ))
    (f : String → ℕ)
    (hocc : ∀ u, lookupA occ u = canonicalOcc (f u))
    (hnd : (keysA occ).Nodup) (hLnd : L.Nodup) :
    (∀ u, lookupA (L.foldl occIncTerm occ) u =
      canonicalOcc (f u + if u ∈ L then 1 else 0)) ∧
    (keysA (L.foldl occIncTerm occ)).Nodup := by
  induction L generalizing occ f with
  | nil => exact ⟨fun u => by simpa using hocc u, hnd⟩
  | cons a L ih =>
    obtain ⟨hL1, hL2⟩ := List.nodup_cons.mp hLnd
    have h1 := occIncTerm_spec occ f a hocc hnd
    have h2 := ih (occIncTerm occ a)
      (fun u => f u + if u = a then 1 else 0) h1.1 h1.2 hL2
    refine ⟨fun u => ?_, h2.2⟩
    rw [List.foldl_cons, h2.1 u]
    congr 1
    by_cases hu : u = a
    · subst hu
      simp [hL1]
    · simp [hu, List.mem_cons]

/-- Inserting one chunk's term contributions. -/
theorem occIncChunk_spec (c : DocumentChunkEntry) (occ : List (String × ℤ))
    (f : String → ℕ)
    (hocc : ∀ u, lookupA occ u = canonicalOcc (f u))
    (hnd : (keysA occ).Nodup) (htf : (keysA c.tf).Nodup) :
    (∀ u, lookupA (occIncChunk occ c) u =
      canonicalOcc (f u + if (lookupA c.tf u).isSome then 1 else 0)) ∧
    (keysA (occIncChunk occ c)).Nodup := by
  have hfold : occIncChunk occ c = (keysA c.tf).foldl occIncTerm occ := by
    rw [occIncChunk, keysA, List.foldl_map]
  have h := occIncList_spec (keysA c.tf) occ f hocc hnd htf
  rw [hfold]
  refine ⟨fun u => ?_, h.2⟩
  rw [h.1 u]
  congr 1
  have hiff := lookupA_isSome_iff_mem c.tf u
  by_cases hu : (lookupA c.tf u).isSome
  · rw [if_pos hu, if_pos (hiff.mp hu)]
  · rw [if_neg hu, if_neg fun hm => hu (hiff.mpr hm)]

/-- Inserting the contributions of a whole chunk list. -/
theorem occIncChunks_spec (chunks : List DocumentChunkEntry)
    (occ : List (String × ℤ)) (f : String → ℕ)
    (hocc : ∀ u, lookupA occ u = canonicalOcc (f u))
    (hnd : (keysA occ).Nodup)
    (htf : ∀ c ∈ chunks, (keysA c.tf).Nodup) :
    (∀ u, lookupA (chunks.foldl occIncChunk occ) u =
      canonicalOcc (f u + contribOf chunks u)) ∧
    (keysA (chunks.foldl occIncChunk occ)).Nodup := by
  induction chunks generalizing occ f with
  | nil => exact ⟨fun u => by simpa [contribOf] using hocc u, hnd⟩
  | cons c rest ih =>
    have h1 := occIncChunk_spec c occ f hocc hnd
      (htf c (List.mem_cons_self c rest))
    have h2 := ih (occIncChunk occ c)
      (fun u => f u + if (lookupA c.tf u).isSome then 1 else 0) h1.1 h1.2
      (fun c' hc' => htf c' (List.mem_cons_of_mem _ hc'))
    refine ⟨fun u => ?_, h2.2⟩
    rw [List.foldl_cons, h2.1 u, contribOf_cons]
    beta_reduce
    congr 1
    omega

/-- Erasing a stored document removes exactly its chunk and term counts. -/
theorem occCount_eraseA (docs : List (String × List DocumentChunkEntry))
    (k : String) (chunks : List DocumentChunkEntry)
    (hnd : (keysA docs).Nodup) (hk : lookupA docs k = some chunks) :
    (∀ u, occCount (eraseA docs k) u + contribOf chunks u = occCount docs u) ∧
    totalChunks (eraseA docs k) + chunks.length = totalChunks docs := by
  induction docs with
  | nil => simp [lookupA] at hk
  | cons hd tl ih =>
    obtain ⟨k₀, v₀⟩ := hd
    by_cases hke : k = k₀
    · subst hke
      simp only [lookupA, eq_self_iff_true, if_true, Option.some.injEq] at hk
      subst hk
      constructor
      · intro u
        simp [eraseA, occCount, Nat.add_comm]
      · simp [eraseA, totalChunks, Nat.add_comm]
    · simp only [keysA, List.map_cons, List.nodup_cons] at hnd
      simp only [lookupA, if_neg hke] at hk
      have h := ih hnd.2 hk
      constructor
      · intro u
        have := h.1 u
        simp only [eraseA, if_neg hke, occCount, List.map_cons, List.sum_cons]
        simp only [occCount] at this
        omega
      · have := h.2
        simp only [eraseA, if_neg hke, totalChunks, List.map_cons, List.sum_cons]
        simp only [totalChunks] at this
        omega

/-- A stored document's contributions are bounded by the global counts. -/
theorem contribOf_le_occCount (docs : List (String × List DocumentChunkEntry))
    (k : String) (chunks : List DocumentChunkEntry)
    (hk : lookupA docs k = some chunks) :
    ∀ u, contribOf chunks u ≤ occCount docs u := by
  induction docs with
  | nil => simp [lookupA] at hk
  | cons hd tl ih =>
    obtain ⟨k₀, v₀⟩ := hd
    intro u
    by_cases hke : k = k₀
    · subst hke
      simp only [lookupA, eq_self_iff_true, if_true, Option.some.injEq] at hk
      subst hk
      simp [occCount]
    · simp only [lookupA, if_neg hke] at hk
      have := ih hk u
      simp only [occCount, List.map_cons, List.sum_cons]
      simp only [occCount] at this
      omega

theorem occCount_append (docs : List (String × List DocumentChunkEntry))
    (k : String) (chunks : List DocumentChunkEntry) (u : String) :
    occCount (docs ++ [(k, chunks)]) u = occCount docs u + contribOf chunks u := by
  simp [occCount]

theorem totalChunks_append (docs : List (String × List DocumentChunkEntry))
    (k : String) (chunks : List DocumentChunkEntry) :
    totalChunks (docs ++ [(k, chunks)]) = totalChunks docs + chunks.length := by
  simp [totalChunks]

/-- `deleteDocument` subtracts exactly the deleted document's term
contributions from the occurrence map. -/
theorem deleteDocument_occ (s : TfIdfState) (hWF : WellFormed s) (k : String) :
    ∀ t, lookupA (deleteDocument k s).chunkOccurrences t =
      canonicalOcc (occCount s.documents t - docContrib s.documents k t) := by
  obtain ⟨hcc, hocc, hndd, hndo, htf⟩ := hWF
  intro t
  unfold deleteDocument docContrib
  cases hlk : lookupA s.documents k with
  | none =>
    simp only
    rw [hocc t]
    simp
  | some chunks =>
    simp only
    have hmem := lookupA_some_mem hlk
    have h := occDecChunks_spec chunks s.chunkOccurrences
      (occCount s.documents) hocc hndo
      (fun c hc => htf _ hmem c hc)
      (contribOf_le_occCount s.documents k chunks hlk)
    exact h.1 t

theorem deleteDocument_wellFormed (s : TfIdfState) (hWF : WellFormed s)
    (k : String) : WellFormed (deleteDocument k s) := by
  obtain ⟨hcc, hocc, hndd, hndo, htf⟩ := hWF
  unfold deleteDocument
  cases hlk : lookupA s.documents k with
  | none => exact ⟨hcc, hocc, hndd, hndo, htf⟩
  | some chunks =>
    simp only
    have hmem := lookupA_some_mem hlk
    have herase := occCount_eraseA s.documents k chunks hndd hlk
    have h := occDecChunks_spec chunks s.chunkOccurrences
      (occCount s.documents) hocc hndo
      (fun c hc => htf _ hmem c hc)
      (contribOf_le_occCount s.documents k chunks hlk)
    refine ⟨?_, ?_, ?_, h.2, ?_⟩
    · show s.chunkCount - (chunks.length : ℤ) =
        ((totalChunks (eraseA s.documents k) : ℕ) : ℤ)
      have := herase.2
      rw [hcc]
      omega
    · intro t
      show lookupA (chunks.foldl occDecChunk s.chunkOccurrences) t =
        canonicalOcc (occCount (eraseA s.documents k) t)
      rw [h.1 t]
      congr 1
      have := herase.1 t
      omega
    · exact nodup_keysA_eraseA _ _ hndd
    · intro p hp
      exact htf p ((eraseA_sublist s.documents k).subset hp)

/-- After deleting `k`, the key `k` is gone from the stored documents. -/
theorem deleteDocument_key_gone (s : TfIdfState) (hWF : WellFormed s)
    (k : String) : k ∉ keysA (deleteDocument k s).documents := by
  obtain ⟨hcc, hocc, hndd, hndo, htf⟩ := hWF
  unfold deleteDocument
  cases hlk : lookupA s.documents k with
  | none =>
    simp only
    exact (lookupA_eq_none_iff_not_mem _ _).mp hlk
  | some chunks =>
    simp only
    exact (lookupA_eq_none_iff_not_mem _ _).mp
      (lookupA_eraseA_self s.documents k hndd)

/-- `deleteDocument` never adds document keys. -/
theorem deleteDocument_keys_subset (s : TfIdfState) (k : String) :
    keysA (deleteDocument k s).documents ⊆ keysA s.documents := by
  unfold deleteDocument
  cases lookupA s.documents k with
  | none => exact fun a ha => ha
  | some chunks =>
    simp only
    intro a ha
    exact (keysA_eraseA_sublist s.documents k).subset ha

/-- Every term-frequency map built by `updateDocuments` has distinct keys. -/
theorem makeChunks_tf_nodup (doc : TfIdfDocument) :
    ∀ c ∈ makeChunks doc, (keysA c.tf).Nodup := by
  intro c hc
  simp only [makeChunks, List.mem_map] at hc
  obtain ⟨text, _, rfl⟩ := hc
  exact countMapFrom_nodup_keysA _

theorem insertDocument_wellFormed (st : TfIdfState) (doc : TfIdfDocument)
    (hWF : WellFormed st) (hfresh : doc.key ∉ keysA st.documents) :
    WellFormed (insertDocument st doc) ∧
    keysA (insertDocument st doc).documents = keysA st.documents ++ [doc.key] := by
  obtain ⟨hcc, hocc, hndd, hndo, htf⟩ := hWF
  have hset := setA_fresh st.documents doc.key (makeChunks doc) hfresh
  have hinc := occIncChunks_spec (makeChunks doc) st.chunkOccurrences
    (occCount st.documents) hocc hndo (makeChunks_tf_nodup doc)
  constructor
  · refine ⟨?_, ?_, ?_, hinc.2, ?_⟩
    · show st.chunkCount + ((makeChunks doc).length : ℤ) =
        ((totalChunks (setA st.documents doc.key (makeChunks doc)) : ℕ) : ℤ)
      rw [hcc, hset, totalChunks_append]
      push_cast
      ring
    · intro t
      show lookupA ((makeChunks doc).foldl occIncChunk st.chunkOccurrences) t =
        canonicalOcc (occCount (setA st.documents doc.key (makeChunks doc)) t)
      rw [hinc.1 t, hset, occCount_append]
    · show (keysA (setA st.documents doc.key (makeChunks doc))).Nodup
      exact nodup_keysA_setA _ _ _ hndd
    · intro p hp
      replace hp : p ∈ setA st.documents doc.key (makeChunks doc) := hp
      rw [hset] at hp
      rcases List.mem_append.mp hp with hold | hnew
      · exact htf p hold
      · rw [List.mem_singleton] at hnew
        subst hnew
        exact makeChunks_tf_nodup doc
  · show keysA (setA st.documents doc.key (makeChunks doc)) =
      keysA st.documents ++ [doc.key]
    rw [hset, keysA, List.map_append]
    rfl

theorem insertPass_wellFormed (docs : List TfIdfDocument) (st : TfIdfState)
    (hWF : WellFormed st) (hnd : (docs.map TfIdfDocument.key).Nodup)
    (hfresh : ∀ d ∈ docs, d.key ∉ keysA st.documents) :
    WellFormed (docs.foldl insertDocument st) := by
  induction docs generalizing st with
  | nil => exact hWF
  | cons d ds ih =>
    simp only [List.map_cons, List.nodup_cons] at hnd
    have h1 := insertDocument_wellFormed st d hWF
      (hfresh d (List.mem_cons_self d ds))
    rw [List.foldl_cons]
    refine ih (insertDocument st d) h1.1 hnd.2 ?_
    intro d' hd'
    rw [h1.2, List.mem_append, List.mem_singleton]
    rintro (h | h)
    · exact hfresh d' (List.mem_cons_of_mem _ hd') h
    · exact hnd.1 (h ▸ List.mem_map_of_mem TfIdfDocument.key hd')

theorem deletePass_wellFormed (docs : List TfIdfDocument) (s : TfIdfState)
    (hWF : WellFormed s) :
    WellFormed (docs.foldl (fun st d => deleteDocument d.key st) s) ∧
    keysA ((docs.foldl (fun st d => deleteDocument d.key st) s)).documents ⊆
      keysA s.documents ∧
    ∀ d ∈ docs,
      d.key ∉ keysA ((docs.foldl (fun st d => deleteDocument d.key st) s)).documents := by
  induction docs generalizing s with
  | nil => exact ⟨hWF, fun a ha => ha, by simp⟩
  | cons d ds ih =>
    have hWF1 := deleteDocument_wellFormed s hWF d.key
    have hgone := deleteDocument_key_gone s hWF d.key
    have h := ih (deleteDocument d.key s) hWF1
    rw [List.foldl_cons]
    refine ⟨h.1, fun a ha => deleteDocument_keys_subset s d.key (h.2.1 ha), ?_⟩
    intro d' hd'
    rcases List.mem_cons.mp hd' with h' | h'
    · subst h'
      intro hmem
      exact hgone (h.2.1 hmem)
    · exact h.2.2 d' h'

theorem updateDocuments_wellFormed (docs : List TfIdfDocument) (s : TfIdfState)
    (hWF : WellFormed s) (hnd : (docs.map TfIdfDocument.key).Nodup) :
    WellFormed (updateDocuments docs s) := by
  unfold updateDocuments
  have h := deletePass_wellFormed docs s hWF
  exact insertPass_wellFormed docs _ h.1 hnd h.2.2

/-- The operations a caller can perform on the calculator. -/
inductive TfIdfOp where
  | update : List TfIdfDocument → TfIdfOp
  | delete : String → TfIdfOp
deriving DecidableEq

/-- Apply one operation. -/
def applyOp (s : TfIdfState) (op : TfIdfOp) : TfIdfState :=
  match op with
  | .update batch => updateDocuments batch s
  | .delete key => deleteDocument key s

/-- Run a sequence of operations on a fresh calculator. -/
def runOps (ops : List TfIdfOp) : TfIdfState :=
  ops.foldl applyOp TfIdfState.initial

theorem initial_wellFormed : WellFormed TfIdfState.initial := by
  refine ⟨rfl, fun t => rfl, ?_, ?_, ?_⟩ <;> simp [TfIdfState.initial, keysA]

theorem runOps_wellFormed (ops : List TfIdfOp)
    (h : ∀ b, TfIdfOp.update b ∈ ops → (b.map TfIdfDocument.key).Nodup) :
    WellFormed (runOps ops) := by
  have main : ∀ (ops : List TfIdfOp) (s : TfIdfState), WellFormed s →
      (∀ b, TfIdfOp.update b ∈ ops → (b.map TfIdfDocument.key).Nodup) →
      WellFormed (ops.foldl applyOp s) := by
    intro ops
    induction ops with
    | nil => exact fun s hs _ => hs
    | cons op rest ih =>
      intro s hs hops
      rw [List.foldl_cons]
      refine ih (applyOp s op) ?_ (fun b hb => hops b (List.mem_cons_of_mem _ hb))
      cases op with
      | update batch =>
        exact updateDocuments_wellFormed batch s hs
          (hops batch (List.mem_cons_self _ _))
      | delete key => exact deleteDocument_wellFormed s hs key
  exact main ops TfIdfState.initial initial_wellFormed h

theorem eq_nil_of_lookupA_forall_none {K V : Type} [DecidableEq K]
    (m : List (K × V)) (h : ∀ k, lookupA m k = none) : m = [] := by
  cases m with
  | nil => rfl
  | cons hd tl =>
    obtain ⟨k, v⟩ := hd
    have := h k
    simp [lookupA] at this

/-- Deleting every stored key empties the document store. -/
theorem deleteAll_documents (docs : List (String × List DocumentChunkEntry))
    (s : TfIdfState) (hWF : WellFormed s) (hdocs : s.documents = docs) :
    ((keysA docs).foldl (fun st k => deleteDocument k st) s).documents = [] ∧
    WellFormed ((keysA docs).foldl (fun st k => deleteDocument k st) s) := by
  induction docs generalizing s with
  | nil => exact ⟨by simpa [keysA] using hdocs, by simpa [keysA] using hWF⟩
  | cons hd tl ih =>
    obtain ⟨k, chunks⟩ := hd
    have hlk : lookupA s.documents k = some chunks := by
      rw [hdocs]
      simp [lookupA]
    have hWF1 := deleteDocument_wellFormed s hWF k
    have hdocs1 : (deleteDocument k s).documents = tl := by
      unfold deleteDocument
      rw [hlk]
      simp only
      rw [hdocs]
      simp [eraseA]
    simpa [keysA] using ih (deleteDocument k s) hWF1 hdocs1

/-- C6 (amended: the batches passed to `updateDocuments` must have pairwise
distinct keys; with an intra-batch duplicate key the delete pass, which only
consults the pre-state, misses the earlier insertion and the counters drift,
see the counterexample): after any sequence of `updateDocuments` /
`deleteDocument` calls, the chunk count equals the number of stored chunks,
a term is absent from the occurrence map iff it occurs in no stored chunk,
`deleteDocument` subtracts exactly the deleted document's contributions, and
deleting every stored key leaves the document store, the chunk count and the
occurrence map empty. -/
theorem C6_tfIdf_counters_consistent (ops : List TfIdfOp)
    (hops : ∀ b, TfIdfOp.update b ∈ ops → (b.map TfIdfDocument.key).Nodup) :
    (runOps ops).chunkCount = (totalChunks (runOps ops).documents : ℤ) ∧
    (∀ t, lookupA (runOps ops).chunkOccurrences t = none ↔
      occCount (runOps ops).documents t = 0) ∧
    (∀ k t, lookupA (deleteDocument k (runOps ops)).chunkOccurrences t =
      canonicalOcc (occCount (runOps ops).documents t -
        docContrib (runOps ops).documents k t)) ∧
    (((keysA (runOps ops).documents).foldl (fun st k => deleteDocument k st)
        (runOps ops)).documents = [] ∧
     ((keysA (runOps ops).documents).foldl (fun st k => deleteDocument k st)
        (runOps ops)).chunkCount = 0 ∧
     ((keysA (runOps ops).documents).foldl (fun st k => deleteDocument k st)
        (runOps ops)).chunkOccurrences = []) := by
  have hWF := runOps_wellFormed ops hops
  obtain ⟨hcc, hocc, hndd, hndo, htf⟩ := hWF
  refine ⟨hcc, ?_, ?_, ?_⟩
  · intro t
    rw [hocc t, canonicalOcc]
    by_cases h : occCount (runOps ops).documents t = 0 <;> simp [h]
  · exact fun k t =>
      deleteDocument_occ (runOps ops) ⟨hcc, hocc, hndd, hndo, htf⟩ k t
  · obtain ⟨hempty, hWF'⟩ := deleteAll_documents (runOps ops).documents
      (runOps ops) ⟨hcc, hocc, hndd, hndo, htf⟩ rfl
    obtain ⟨hcc', hocc', _, _, _⟩ := hWF'
    refine ⟨hempty, ?_, ?_⟩
    · rw [hcc', hempty]
      rfl
    · refine eq_nil_of_lookupA_forall_none _ (fun t => ?_)
      rw [hocc' t, hempty]
      rfl

/-- The operation list of the witness below. -/
def exC6Ops : List TfIdfOp :=
  [.update [⟨"a", ["cat dog"]⟩, ⟨"b", ["dog"]⟩], .delete "a"]

theorem C6_tfIdf_counters_consistent_witness :
    (∀ b, TfIdfOp.update b ∈ exC6Ops → (b.map TfIdfDocument.key).Nodup) ∧
    ((runOps exC6Ops).chunkCount = (totalChunks (runOps exC6Ops).documents : ℤ) ∧
    (∀ t, lookupA (runOps exC6Ops).chunkOccurrences t = none ↔
      occCount (runOps exC6Ops).documents t = 0) ∧
    (∀ k t, lookupA (deleteDocument k (runOps exC6Ops)).chunkOccurrences t =
      canonicalOcc (occCount (runOps exC6Ops).documents t -
        docContrib (runOps exC6Ops).documents k t)) ∧
    (((keysA (runOps exC6Ops).documents).foldl (fun st k => deleteDocument k st)
        (runOps exC6Ops)).documents = [] ∧
     ((keysA (runOps exC6Ops).documents).foldl (fun st k => deleteDocument k st)
        (runOps exC6Ops)).chunkCount = 0 ∧
     ((keysA (runOps exC6Ops).documents).foldl (fun st k => deleteDocument k st)
        (runOps exC6Ops)).chunkOccurrences = [])) := by
  have hops : ∀ b, TfIdfOp.update b ∈ exC6Ops →
      (b.map TfIdfDocument.key).Nodup := by
    intro b hb
    simp only [exC6Ops, List.mem_cons, List.not_mem_nil, or_false] at hb
    rcases hb with hb | hb
    · cases hb
      decide
    · cases hb
  exact ⟨hops, C6_tfIdf_counters_consistent exC6Ops hops⟩

/-- C6 counterexample: the claim as stated quantifies over every batch; for
the duplicate-key batch `[{key:"k", chunks:["aaa"]}, {key:"k",
chunks:["bbb"]}]` the delete pass of `updateDocuments` (which only consults
the pre-state) misses the intra-batch overwrite, so the chunk count is 2
while only one chunk is stored, and `"aaa"` keeps occurrence count 1 even
though it occurs in no stored chunk. -/
theorem C6_counterexample_duplicate_batch_keys :
    (updateDocuments [⟨"k", ["aaa"]⟩, ⟨"k", ["bbb"]⟩]
        TfIdfState.initial).chunkCount = 2 ∧
    totalChunks (updateDocuments [⟨"k", ["aaa"]⟩, ⟨"k", ["bbb"]⟩]
        TfIdfState.initial).documents = 1 ∧
    lookupA (updateDocuments [⟨"k", ["aaa"]⟩, ⟨"k", ["bbb"]⟩]
        TfIdfState.initial).chunkOccurrences "aaa" = some 1 ∧
    occCount (updateDocuments [⟨"k", ["aaa"]⟩, ⟨"k", ["bbb"]⟩]
        TfIdfState.initial).documents "aaa" = 0 := by
  decide

/-! ## Semantic search engine (`src/search/semanticSearch.ts`)

JavaScript metadata records hold strings or numbers where the engine reads
them, so metadata is modelled as an association list into a small sum. -/

/-- A metadata value: the codebase stores strings and (integer) numbers. -/
inductive MetaVal where
  | str : String → MetaVal
  | num : ℤ → MetaVal
deriving DecidableEq

/-- A document stored in `SemanticSearchEngine`'s private `documents` map. -/
structure SemDoc where
  text : String
  embedding : List ℚ
  metadata : List (String × MetaVal)
deriving DecidableEq

/-- `SemanticSearchResult`. -/
structure SemanticSearchResult where
  id : String
  score : ℚ
  content : String
  metadata : Option (List (String × MetaVal))
deriving DecidableEq

/-- `SemanticSearchOptions`: every field optional, mirroring `topK ?? 5`,
`threshold ?? 0.0`, `include* ?? true` in the source. -/
structure SemanticSearchOptions where
  topK : Option ℕ := none
  threshold : Option ℚ := none
  includeSimilarity : Option Bool := none
  includeContent : Option Bool := none
  includeMetadata : Option Bool := none
deriving DecidableEq

/-- Exact stand-in for `Math.sqrt`, exact on perfect squares (the only
inputs reached by the concrete theorems below). -/
def sqrtQ (q : ℚ) : ℚ := ((Nat.sqrt q.num.toNat : ℤ) : ℚ) / ((Nat.sqrt q.den : ℤ) : ℚ)

/-- `SemanticSearchEngine.cosineSimilarity`, with `Math.sqrt` as the
parameter `sq`; `none` models the thrown dimension-mismatch error. -/
def cosineSimilarity (sq : ℚ → ℚ) (a b : List ℚ) : Option ℚ :=
  if a.length ≠ b.length then none
  else
    let dotProduct := ((a.zip b).map (fun p => p.1 * p.2)).sum
    let normA := (a.map (fun x => x * x)).sum
    let normB := (b.map (fun x => x * x)).sum
    if normA = 0 ∨ normB = 0 then some 0
    else some (dotProduct / (sq normA * sq normB))

/-- `SemanticSearchEngine.search`. The embedding service is abstracted by
the function `embed` (one registered provider; `computeEmbeddings` on a
one-element list). `none` models a thrown error (dimension mismatch on some
stored document). -/
def searchEngine (sq : ℚ → ℚ) (embed : String → List ℚ)
    (documents : List (String × SemDoc)) (query : String)
    (options : SemanticSearchOptions) (token : Bool) :
    Option (List SemanticSearchResult) :=
  if token then some []
  else
    let topK := options.topK.getD 5
    let threshold := options.threshold.getD 0
    let includeSimilarity := options.includeSimilarity.getD true
    let includeContent := options.includeContent.getD true
    let includeMetadata := options.includeMetadata.getD true
    let queryEmbedding := embed query
    if token then some []
    else do
      let scored ← documents.mapM (fun p => do
        let score ← cosineSimilarity sq queryEmbedding p.2.embedding
        pure (SemanticSearchResult.mk p.1 score
          (if includeContent then p.2.text else "")
          (if includeMetadata then some p.2.metadata else none)))
      let results := ((scored.filter (fun r => threshold ≤ r.score)).mergeSort
          (fun a b => decide (b.score ≤ a.score))).take topK
      pure (if includeSimilarity then results
            else results.map (fun r => { r with score := 0 }))

/-! ## The `VoidIndexing` orchestrator facade (`src/voidIndexing.ts`)

The orchestrator holds a `SemanticSearchEngine`, a storage adapter and a
TF-IDF calculator. Its mutable state relevant to the claims is the semantic
engine's private `documents` map and the storage adapter's record map. The
chunking-strategy dispatch and the embedding provider are abstracted as
function parameters (`chunker` for `chunkingStrategy.chunk(content,
metadata, token)`, `embed` for the registered provider's
`computeEmbeddings` on a one-element list). -/

/-- A chunk produced by a chunking strategy. -/
structure Chunk where
  id : String
  content : String
  metadata : List (String × MetaVal)
deriving DecidableEq

/-- A record held by the `InMemoryStorageAdapter`. -/
structure StoredDoc where
  content : String
  embedding : List ℚ
  metadata : List (String × MetaVal)
deriving DecidableEq

/-- The orchestrator's stores: the semantic engine's `documents` map and
the storage adapter's map. -/
structure OrchestratorState where
  semanticDocs : List (String × SemDoc)
  storage : List (String × StoredDoc)
deriving DecidableEq

/-- `SearchResult` returned by the orchestrator. -/
structure SearchResult where
  id : String
  content : String
  score : ℚ
  metadata : List (String × MetaVal)
deriving DecidableEq

/-- `VoidIndexing.indexFile`: chunk the content, embed and store every
chunk in the storage adapter. Returns the chunks and the updated state. -/
def indexFile (chunker : String → List Chunk) (embed : String → List ℚ)
    (st : OrchestratorState) (content : String) (token : Bool) :
    List Chunk × OrchestratorState :=
  if token then ([], st)
  else
    let chunks := chunker content
    if token then ([], st)
    else
      (chunks, chunks.foldl (fun acc c =>
        let entry := StoredDoc.mk c.content (embed c.content) c.metadata
        { acc with storage := setA acc.storage c.id entry }) st)

/-- `VoidIndexing.indexContent`: chunk, take the first chunk, embed and
store it; `none` in the first component models the `null` return. -/
def indexContent (chunker : String → List Chunk) (embed : String → List ℚ)
    (st : OrchestratorState) (content : String) (token : Bool) :
    Option Chunk × OrchestratorState :=
  if token then (none, st)
  else
    let chunks := chunker content
    if token ∨ chunks.isEmpty then (none, st)
    else
      match chunks with
      | [] => (none, st)
      | c :: _ =>
        (some c,
          let entry := StoredDoc.mk c.content (embed c.content) c.metadata
          { st with storage := setA st.storage c.id entry })

/-- `VoidIndexing.search`: delegates to the semantic engine and re-shapes
the results (`metadata: result.metadata || {}`). -/
def voidSearch (sq : ℚ → ℚ) (embed : String → List ℚ)
    (st : OrchestratorState) (query : String)
    (options : SemanticSearchOptions) (token : Bool) :
    Option (List SearchResult) :=
  if token then some []
  else do
    let results ← searchEngine sq embed st.semanticDocs query options token
    pure (results.map (fun r =>
      SearchResult.mk r.id r.content r.score (r.metadata.getD [])))

/-! ### Claim C5 -/

/-- C5 counterexample: the claim says that with no options the default
threshold 0.7 applies, so no returned result has similarity below 0.7. In
`SemanticSearchEngine.search` the default is `options.threshold ?? 0.0`:
for a stored document whose embedding `[4, -3]` is orthogonal to the query
embedding `[3, 4]` (cosine similarity 0), the no-options search returns the
document with score 0 < 0.7. -/
theorem C5_counterexample_default_threshold_zero :
    searchEngine sqrtQ (fun _ => [3, 4])
        [("a", ⟨"t", [4, -3], []⟩)] "q" {} false
      = some [⟨"a", 0, "t", some []⟩] ∧ (0 : ℚ) < 7/10 := by
  constructor
  · simp [searchEngine, cosineSimilarity, List.mapM.loop, List.mergeSort,
      Option.bind]
    norm_num
  · norm_num

/-- C5 (amended): with no options, `topK` defaults to 5 but `threshold`
defaults to 0.0, not 0.7: every non-throwing no-options search returns at
most 5 results, sorted by descending similarity, each with score at least 0
— but scores below 0.7 can be returned (see the counterexample). Stated for
the orchestrator's `search`, which passes its options through to the
engine. -/
theorem C5_search_defaults (sq : ℚ → ℚ) (embed : String → List ℚ)
    (st : OrchestratorState) (query : String)
    (res : List SearchResult)
    (h : voidSearch sq embed st query {} false = some res) :
    res.length ≤ 5 ∧ res.Pairwise (fun a b => b.score ≤ a.score) ∧
    ∀ r ∈ res, 0 ≤ r.score := by
  simp only [voidSearch, Bool.false_eq_true, if_false, Option.pure_def,
    Option.bind_eq_bind, Option.bind_eq_some] at h
  obtain ⟨results, hengine, hres⟩ := h
  simp only [Option.some.injEq] at hres
  subst hres
  simp only [searchEngine, Bool.false_eq_true, if_false, Option.getD,
    Option.pure_def, Option.bind_eq_bind, Option.bind_eq_some] at hengine
  obtain ⟨scored, hmap, hr⟩ := hengine
  simp only [Option.some.injEq] at hr
  subst hr
  have htrans : ∀ (a b c : SemanticSearchResult),
      decide (b.score ≤ a.score) → decide (c.score ≤ b.score) →
      decide (c.score ≤ a.score) := by
    intro a b c hab hbc
    simp only [decide_eq_true_eq] at *
    exact le_trans hbc hab
  have htotal : ∀ (a b : SemanticSearchResult),
      decide (b.score ≤ a.score) || decide (a.score ≤ b.score) := by
    intro a b
    rcases le_total b.score a.score with h | h <;> simp [h]
  have hpair := List.sorted_mergeSort htrans htotal
    ((scored.filter (fun r => (0 : ℚ) ≤ r.score)))
  refine ⟨?_, ?_, ?_⟩
  · simpa using List.length_take_le 5 _
  · have hsorted : (((scored.filter (fun r => (0 : ℚ) ≤ r.score)).mergeSort
        (fun a b => decide (b.score ≤ a.score))).take 5).Pairwise
          (fun a b => decide (b.score ≤ a.score) = true) :=
      List.Pairwise.sublist (List.take_sublist 5 _) hpair
    have := hsorted.map (f := fun r =>
      SearchResult.mk r.id r.content r.score (r.metadata.getD []))
      (S := fun a b => b.score ≤ a.score) ?_
    · simpa using this
    · intro a b hab
      simpa using of_decide_eq_true hab
  · intro r hr
    simp only [List.mem_map] at hr
    obtain ⟨r₀, hr₀, rfl⟩ := hr
    have hmem : r₀ ∈ (scored.filter (fun r => (0 : ℚ) ≤ r.score)).mergeSort
        (fun a b => decide (b.score ≤ a.score)) :=
      (List.take_sublist 5 _).subset hr₀
    rw [List.mem_mergeSort] at hmem
    have := List.of_mem_filter hmem
    simpa using of_decide_eq_true this

/-- Witness input for `C5_search_defaults`. -/
def exC5State : OrchestratorState :=
  ⟨[("a", ⟨"t", [4, -3], []⟩)], []⟩

theorem C5_search_defaults_witness :
    voidSearch sqrtQ (fun _ => [3, 4]) exC5State "q" {} false =
      some [⟨"a", "t", 0, []⟩] ∧
    ([(⟨"a", "t", 0, []⟩ : SearchResult)].length ≤ 5 ∧
      [(⟨"a", "t", 0, []⟩ : SearchResult)].Pairwise
        (fun a b => b.score ≤ a.score) ∧
      ∀ r ∈ [(⟨"a", "t", 0, []⟩ : SearchResult)], 0 ≤ r.score) := by
  have hengine := C5_counterexample_default_threshold_zero.1
  have h : voidSearch sqrtQ (fun _ => [3, 4]) exC5State "q" {} false =
      some [⟨"a", "t", 0, []⟩] := by
    simp [voidSearch, exC5State, hengine]
  exact ⟨h, C5_search_defaults sqrtQ (fun _ => [3, 4]) exC5State "q" _ h⟩

/-! ### Claim C1 -/

/-- A chunking strategy producing a single chunk, standing for the
dispatched `chunkingStrategy.chunk`. -/
def exC1Chunker : String → List Chunk := fun content => [⟨"chunk-0", content, []⟩]

/-- A one-dimensional embedding provider mapping every text to `[1]`. -/
def exC1Embed : String → List ℚ := fun _ => [1]

/-- C1: the claim says the chunks `indexFile` embeds and stores belong to
the corpus a subsequent `search` scores. In the code `indexFile` writes
every chunk to the storage adapter (`this.storage.storeDocument`), while
`search` delegates to `SemanticSearchEngine.search`, which scans the
engine's private `documents` map — a map no orchestrator code path ever
populates. Indexing `"hello world"` stores the chunk, its embedding equals
the query embedding of the subsequent identical search (cosine similarity
1, above any threshold), yet the search returns no results because the
engine's corpus is still empty. -/
theorem C1_indexFile_store_invisible_to_search :
    lookupA (indexFile exC1Chunker exC1Embed ⟨[], []⟩ "hello world" false).2.storage
        "chunk-0" = some ⟨"hello world", [1], []⟩ ∧
    (indexFile exC1Chunker exC1Embed ⟨[], []⟩ "hello world" false).2.semanticDocs
        = [] ∧
    cosineSimilarity sqrtQ (exC1Embed "hello world") [1] = some 1 ∧
    voidSearch sqrtQ exC1Embed
        (indexFile exC1Chunker exC1Embed ⟨[], []⟩ "hello world" false).2
        "hello world" {} false = some [] := by
  refine ⟨?_, ?_, ?_, ?_⟩
  · simp [indexFile, exC1Chunker, exC1Embed, setA, lookupA]
  · simp [indexFile, exC1Chunker, exC1Embed]
  · simp only [cosineSimilarity, exC1Embed, List.zip_cons_cons,
      List.zip_nil_right, List.map_cons, List.map_nil, List.sum_cons,
      List.sum_nil, List.length_cons, List.length_nil]
    norm_num [sqrtQ]
  · have hsem : (indexFile exC1Chunker exC1Embed ⟨[], []⟩ "hello world"
        false).2.semanticDocs = [] := by
      simp [indexFile, exC1Chunker, exC1Embed]
    simp [voidSearch, searchEngine, hsem, List.mapM.loop]

/-! ## Prompt builder (`src/prompts/promptBuilder.ts`)

String helpers: `String.prototype.replace` with a plain string pattern
replaces the first occurrence (the `$`-escape forms of the replacement
argument are not modelled; no input below uses them). `split(/\s+/).length`
equals the number of maximal whitespace runs plus one. `Math.ceil(x * 1.3)`
is modelled exactly over ℚ; the double `1.3` is not exactly 13/10, but the
two differ on no input used by a theorem below. -/

/-- Replace the first occurrence of `pat` (as character lists). -/
def replaceFirstL (s pat rep : List Char) : List Char :=
  match s with
  | [] => []
  | c :: rest =>
    if pat.isPrefixOf (c :: rest) then rep ++ (c :: rest).drop pat.length
    else c :: replaceFirstL rest pat rep

/-- `String.prototype.replace` with a plain-string pattern. -/
def replaceFirst (s pat rep : String) : String :=
  String.mk (replaceFirstL s.data pat.data rep.data)

/-- A JS `\s` whitespace character (the ASCII ones reached by the claims). -/
def isJsWhitespace (c : Char) : Bool :=
  c = ' ' || c = '\t' || c = '\n' || c = '\r' || c = '\x0c' || c = '\x0b'

/-- Number of maximal whitespace runs. -/
def wsRunCount (cs : List Char) (inRun : Bool) : ℕ :=
  match cs with
  | [] => 0
  | c :: rest =>
    if isJsWhitespace c then (if inRun then 0 else 1) + wsRunCount rest true
    else wsRunCount rest false

/-- `PromptBuilder.estimateTokens`:
`Math.ceil(text.split(/\s+/).length * 1.3)`. -/
def estimateTokens (text : String) : ℕ :=
  (13 * (wsRunCount text.data false + 1) + 9) / 10

/-- `PromptTemplate`. -/
structure PromptTemplate where
  systemMessage : Option String
  userMessageTemplate : String
  contextHeader : Option String
  contextFooter : Option String
  contextSeparator : String
deriving DecidableEq

/-- The `defaultTemplate` of `PromptBuilder` (a builder constructed with no
custom template uses exactly these fields). -/
def defaultTemplate : PromptTemplate where
  systemMessage :=
    some "You are a helpful coding assistant with expertise in software development."
  userMessageTemplate := "\x7b\x7bquery\x7d\x7d"
  contextHeader := some "Here is some relevant code context:\n"
  contextFooter := some "\nPlease answer based on the above context."
  contextSeparator := "\n---\n"

/-- The `metadata` record of an `ExtendedCodeSnippet`. -/
structure SnippetMeta where
  fileName : Option String
  language : Option String
deriving DecidableEq

/-- `ExtendedCodeSnippet` (`type` is the numeric `SnippetType`, unused by
the builder). -/
structure ExtendedCodeSnippet where
  content : String
  startLine : ℤ
  endLine : ℤ
  relevance : ℚ
  type : ℕ
  metadata : Option SnippetMeta
deriving DecidableEq

/-- `ModelCapabilities` as consumed by `buildPrompt`. -/
structure ModelCapabilities where
  contextWindow : ℤ
  supportsSystemMessage : Bool
  maxOutputTokens : Option ℤ
deriving DecidableEq

/-- `PromptContext`. -/
structure PromptContext where
  query : String
  codeSnippets : List ExtendedCodeSnippet
  systemInfo : Option (List (String × String))
  modelCapabilities : Option ModelCapabilities
deriving DecidableEq

/-- `PromptResult`. -/
structure PromptResult where
  systemMessage : Option String
  userMessage : String
  includedSnippets : ℕ
  totalSnippets : ℕ
  estimatedTokens : ℕ
deriving DecidableEq

/-- JS `a || b` on an optional string: `undefined` and `''` are falsy. -/
def jsOrStr (o : Option String) (d : String) : String :=
  match o with
  | some s => if s = "" then d else s
  | none => d

/-- JS `a || b` on an optional number: `undefined` and `0` are falsy. -/
def jsOrInt (o : Option ℤ) (d : ℤ) : ℤ :=
  match o with
  | some n => if n = 0 then d else n
  | none => d

/-- `PromptBuilder.formatSnippet`. -/
def formatSnippet (snippet : ExtendedCodeSnippet) : String :=
  let fileName := jsOrStr (snippet.metadata.bind (·.fileName)) "unknown"
  let language := jsOrStr (snippet.metadata.bind (·.language)) ""
  "File: " ++ fileName ++ " (Lines " ++ toString (snippet.startLine + 1) ++
    "-" ++ toString (snippet.endLine + 1) ++ ")\n" ++
    "```" ++ language ++ "\n" ++ snippet.content ++ "\n" ++ "```"

/-- `PromptBuilder.formatSystemMessage`. -/
def formatSystemMessage (template : Option String)
    (systemInfo : Option (List (String × String))) : String :=
  match template with
  | none => ""
  | some t =>
    if t = "" then ""
    else
      match systemInfo with
      | none => t
      | some info =>
        info.foldl (fun acc p =>
          replaceFirst acc ("\x7b\x7b" ++ p.1 ++ "\x7d\x7d") p.2) t

/-- The greedy loop of `calculateSnippetsToInclude`. -/
def snippetsToIncludeGo (separator : String) (availableTokens : ℤ) :
    ℤ → List ExtendedCodeSnippet → List ExtendedCodeSnippet
  | _, [] => []
  | tokenCount, s :: rest =>
    let snippetTokens : ℤ := estimateTokens (formatSnippet s ++ separator)
    if tokenCount + snippetTokens ≤ availableTokens then
      s :: snippetsToIncludeGo separator availableTokens
        (tokenCount + snippetTokens) rest
    else []

/-- `PromptBuilder.calculateSnippetsToInclude`. -/
def calculateSnippetsToInclude (separator : String)
    (snippets : List ExtendedCodeSnippet)
    (maxContextTokens maxOutputTokens : ℤ) : List ExtendedCodeSnippet :=
  let reservedTokens := 500 + maxOutputTokens
  let availableTokens := maxContextTokens - reservedTokens
  snippetsToIncludeGo separator availableTokens 0 snippets

/-- `PromptBuilder.buildPrompt` (for a builder holding `template`). -/
def buildPrompt (template : PromptTemplate) (context : PromptContext) :
    PromptResult :=
  let sortedSnippets := context.codeSnippets.mergeSort
    (fun a b => decide (b.relevance ≤ a.relevance))
  let snippetsToInclude := calculateSnippetsToInclude template.contextSeparator
    sortedSnippets
    (jsOrInt (context.modelCapabilities.map (·.contextWindow)) 4000)
    (jsOrInt (context.modelCapabilities.bind (·.maxOutputTokens)) 1000)
  let contextString :=
    if 0 < snippetsToInclude.length then
      (template.contextHeader.getD "") ++
        String.intercalate template.contextSeparator
          (snippetsToInclude.map formatSnippet) ++
        (template.contextFooter.getD "")
    else ""
  let userMessage := replaceFirst
    (replaceFirst template.userMessageTemplate "\x7b\x7bquery\x7d\x7d" context.query)
    "\x7b\x7bcontext\x7d\x7d" contextString
  let supports := (context.modelCapabilities.map
    (·.supportsSystemMessage)).getD false
  let systemMessage :=
    if supports then some (formatSystemMessage template.systemMessage
      context.systemInfo)
    else none
  let finalUserMessage :=
    if supports then userMessage
    else (systemMessage.getD "") ++ "\n\n" ++ userMessage
  let estimatedTokens := estimateTokens ((systemMessage.getD "") ++
    finalUserMessage)
  { systemMessage := systemMessage
    userMessage := finalUserMessage
    includedSnippets := snippetsToInclude.length
    totalSnippets := sortedSnippets.length
    estimatedTokens := estimatedTokens }

/-! ### Claim C4 -/

/-- C4: the claim (and the source's own comment "If system messages aren't
supported, prepend it to the user message") says that with
`supportsSystemMessage = false` the template's system text is prepended to
the user message. In the code, `systemMessage` is computed as `undefined`
in that very case (`context.modelCapabilities?.supportsSystemMessage ? … :
undefined`), so the later `${systemMessage || ''}\n\n${userMessage}`
prepends the empty string: for query `"q"` and no snippets, the default
builder yields the user message `"\n\nq"`, losing the system text, and the
result is not the system text followed by the user content. -/
theorem C4_system_text_dropped_when_unsupported :
    buildPrompt defaultTemplate
        ⟨"q", [], none, some ⟨4000, false, none⟩⟩ =
      ⟨none, "\n\nq", 0, 0, 3⟩ ∧
    ("\n\nq" : String) ≠
      (defaultTemplate.systemMessage.getD "") ++ "\n\n" ++ "q" := by
  constructor
  · simp only [buildPrompt, calculateSnippetsToInclude, snippetsToIncludeGo,
      List.mergeSort, formatSystemMessage, defaultTemplate]
    decide
  · decide

/-! ## Orchestrator `buildPrompt` (`src/voidIndexing.ts`) -/

/-- The options of `VoidIndexing.buildPrompt`. -/
structure BuildPromptOptions where
  maxContextItems : Option ℕ := none
  searchThreshold : Option ℚ := none
  modelCapabilities : Option ModelCapabilities := none
  systemInfo : Option (List (String × String)) := none
deriving DecidableEq

/-- JS `a || b` on an optional natural number (`0` is falsy). -/
def jsOrNat (o : Option ℕ) (d : ℕ) : ℕ :=
  match o with
  | some n => if n = 0 then d else n
  | none => d

/-- JS `a || b` on an optional rational (`0` is falsy). -/
def jsOrRat (o : Option ℚ) (d : ℚ) : ℚ :=
  match o with
  | some q => if q = 0 then d else q
  | none => d

/-- `result.metadata.startLine || 0` (only numeric values count). -/
def metaInt (m : List (String × MetaVal)) (k : String) : ℤ :=
  match lookupA m k with
  | some (.num n) => n
  | _ => 0

/-- `result.metadata.fileName || d` (only string values count). -/
def metaStr (m : List (String × MetaVal)) (k : String) (d : String) : String :=
  match lookupA m k with
  | some (.str s) => if s = "" then d else s
  | _ => d

/-- The empty prompt result returned on cancellation. -/
def emptyPromptResult (query : String) : PromptResult :=
  ⟨none, query, 0, 0, 0⟩

/-- `VoidIndexing.buildPrompt`: search for context, convert the results to
snippets, delegate to the prompt builder holding `template`. -/
def voidBuildPrompt (sq : ℚ → ℚ) (embed : String → List ℚ)
    (template : PromptTemplate) (st : OrchestratorState) (query : String)
    (options : BuildPromptOptions) (token : Bool) : Option PromptResult :=
  if token then some (emptyPromptResult query)
  else do
    let results ← voidSearch sq embed st query
      ⟨some (jsOrNat options.maxContextItems 5),
       some (jsOrRat options.searchThreshold (7/10)), none, none, none⟩ token
    if token then some (emptyPromptResult query)
    else
      let snippets := results.map (fun r => ExtendedCodeSnippet.mk r.content
        (metaInt r.metadata "startLine") (metaInt r.metadata "endLine")
        r.score 0
        (some ⟨some (metaStr r.metadata "fileName" "unknown"),
               some (metaStr r.metadata "language" "plaintext")⟩))
      some (buildPrompt template
        ⟨query, snippets, options.systemInfo, options.modelCapabilities⟩)

/-! ### Claim C7 -/

/-- C7: every operation invoked with an already-cancelled token returns its
neutral typed result without throwing: `calculateScores` returns `[]` (the
token is checked before each document, so nothing is scored), `indexFile`
returns `[]` leaving the stores untouched, `search` returns `[]`,
`indexContent` returns `null`, and the orchestrator's `buildPrompt` returns
the bare query with `includedSnippets = totalSnippets = estimatedTokens =
0`. -/
theorem C7_cancelled_operations_return_neutral_results :
    (∀ (lg : ℚ → ℚ) (query : String) (s : TfIdfState),
      calculateScores lg query true s = []) ∧
    (∀ (chunker : String → List Chunk) (embed : String → List ℚ)
      (st : OrchestratorState) (content : String),
      indexFile chunker embed st content true = ([], st)) ∧
    (∀ (sq : ℚ → ℚ) (embed : String → List ℚ) (st : OrchestratorState)
      (query : String) (options : SemanticSearchOptions),
      voidSearch sq embed st query options true = some []) ∧
    (∀ (chunker : String → List Chunk) (embed : String → List ℚ)
      (st : OrchestratorState) (content : String),
      indexContent chunker embed st content true = (none, st)) ∧
    (∀ (sq : ℚ → ℚ) (embed : String → List ℚ) (template : PromptTemplate)
      (st : OrchestratorState) (query : String) (options : BuildPromptOptions),
      voidBuildPrompt sq embed template st query options true =
        some ⟨none, query, 0, 0, 0⟩) := by
  refine ⟨?_, ?_, ?_, ?_, ?_⟩
  · intro lg query s
    unfold calculateScores
    generalize computeEmbedding lg s query = emb
    cases s.documents with
    | nil => rfl
    | cons d rest => cases d; simp [calculateScoresGo]
  · intro chunker embed st content
    simp [indexFile]
  · intro sq embed st query options
    simp [voidSearch]
  · intro chunker embed st content
    simp [indexContent]
  · intro sq embed template st query options
    simp [voidBuildPrompt, emptyPromptResult]

/-! ## Multi-factor context ranker (`src/ranking/contextRanker.ts`)

`Math.exp` (used only by the softmax branch) is the parameter `expQ`. -/

/-- `RankingFactors`. -/
structure RankingFactors where
  tfIdfScore : ℚ
  fuzzyScore : ℚ
  proximityScore : ℚ
  semanticScore : ℚ
  astRelevance : ℚ
deriving DecidableEq

/-- The all-zero factor record. -/
def zeroFactors : RankingFactors := ⟨0, 0, 0, 0, 0⟩

/-- `normalizationStrategy: 'minMax' | 'softmax' | 'none'` (`'none'` is
`nostrategy` here to avoid clashing with `Option.none`). -/
inductive NormalizationStrategy where
  | minMax
  | softmax
  | nostrategy
deriving DecidableEq

/-- `RankerOptions`. -/
structure RankerOptions where
  tfIdfWeight : ℚ
  fuzzyWeight : ℚ
  proximityWeight : ℚ
  semanticWeight : ℚ
  astWeight : ℚ
  minScore : ℚ
  normalizationStrategy : NormalizationStrategy
deriving DecidableEq

/-- The defaults a `ContextRanker` is constructed with. -/
def defaultRankerOptions : RankerOptions :=
  ⟨4/10, 2/10, 15/100, 15/100, 1/10, 2/10, .minMax⟩

/-- `ScoredContext<T>`. -/
structure ScoredContext (T : Type) where
  item : T
  score : ℚ
  factors : RankingFactors
deriving DecidableEq

/-- `ContextRanker.calculateWeightedScore`. -/
def calculateWeightedScore (opts : RankerOptions) (f : RankingFactors) : ℚ :=
  f.tfIdfScore * opts.tfIdfWeight +
  f.fuzzyScore * opts.fuzzyWeight +
  f.proximityScore * opts.proximityWeight +
  f.semanticScore * opts.semanticWeight +
  f.astRelevance * opts.astWeight

/-- `ContextRanker.normalizeScores`. -/
def normalizeScores {T : Type} (expQ : ℚ → ℚ) (opts : RankerOptions)
    (items : List (ScoredContext T)) : List (ScoredContext T) :=
  match items with
  | [] => []
  | i₀ :: rest =>
    let all := i₀ :: rest
    match opts.normalizationStrategy with
    | .minMax =>
      let mn := rest.foldl (fun m i => min m i.score) i₀.score
      let mx := rest.foldl (fun m i => max m i.score) i₀.score
      if mx = mn then
        all.map (fun i => { i with score := 1 })
      else
        all.map (fun i => { i with score := (i.score - mn) / (mx - mn) })
    | .softmax =>
      let expScores := all.map (fun i => expQ i.score)
      let sumExp := expScores.sum
      all.map (fun i => { i with score := expQ i.score / sumExp })
    | .nostrategy => all

/-- `ContextRanker.rankItems` (the `scoreFn` is synchronous here; the token
is checked before each item, so a pre-cancelled token yields `[]`). -/
def rankItems {T : Type} (expQ : ℚ → ℚ) (opts : RankerOptions)
    (items : List T) (query : String)
    (scoreFn : T → String → RankingFactors) (token : Bool) :
    List (ScoredContext T) :=
  if token then []
  else
    let scoredItems := items.map (fun item =>
      ScoredContext.mk item (calculateWeightedScore opts (scoreFn item query))
        (scoreFn item query))
    let normalizedItems := normalizeScores expQ opts scoredItems
    let filteredItems := normalizedItems.filter
      (fun i => opts.minScore ≤ i.score)
    filteredItems.mergeSort (fun a b => decide (b.score ≤ a.score))

/-! ### Claim C3 -/

/-- C3 counterexample: the claim says that with all five factor scores 0
and `minScore > 0` the output is empty, for every ranker configuration.
Under the default configuration (`minScore = 0.2 > 0`, min-max
normalization) a single all-zero item gets weighted score 0; min-max sees
`max = min` and rewrites every score to 1.0, which passes the `minScore`
filter, so the output is the item with score 1, not the empty list. -/
theorem C3_counterexample_minMax_rescues_zero_scores :
    rankItems (fun q => q) defaultRankerOptions [()] "q"
        (fun _ _ => zeroFactors) false =
      [⟨(), 1, zeroFactors⟩] ∧
    ¬ (rankItems (fun q => q) defaultRankerOptions [()] "q"
        (fun _ _ => zeroFactors) false = []) := by
  have h : rankItems (fun q => q) defaultRankerOptions [()] "q"
      (fun _ _ => zeroFactors) false = [⟨(), 1, zeroFactors⟩] := by
    simp only [rankItems, normalizeScores, calculateWeightedScore,
      defaultRankerOptions, zeroFactors, List.map, List.foldl,
      Bool.false_eq_true, if_false]
    norm_num [List.filter, List.mergeSort]
  exact ⟨h, by rw [h]; simp⟩

/-- C3 (amended: the statement holds when the ranker is configured with
`normalizationStrategy: 'none'`; under the default min-max strategy all
equal raw scores — including all zeros — are normalized to 1.0 and survive
the filter, see the counterexample): with no normalization, all factor
scores 0 and `minScore > 0`, `rankItems` returns the empty list. -/
theorem C3_rankItems_all_zero_factors_empty {T : Type} (expQ : ℚ → ℚ)
    (opts : RankerOptions) (items : List T) (query : String)
    (scoreFn : T → String → RankingFactors) (token : Bool)
    (hstrat : opts.normalizationStrategy = .nostrategy)
    (hmin : 0 < opts.minScore)
    (hzero : ∀ i ∈ items, scoreFn i query = zeroFactors) :
    rankItems expQ opts items query scoreFn token = [] := by
  unfold rankItems
  cases token with
  | true => rfl
  | false =>
    simp only [Bool.false_eq_true, if_false]
    have hfilter : (normalizeScores expQ opts (items.map (fun item =>
        ScoredContext.mk item (calculateWeightedScore opts (scoreFn item query))
          (scoreFn item query)))).filter (fun i => opts.minScore ≤ i.score) = [] := by
      have hnorm : normalizeScores expQ opts (items.map (fun item =>
          ScoredContext.mk item
            (calculateWeightedScore opts (scoreFn item query))
            (scoreFn item query))) = items.map (fun item =>
          ScoredContext.mk item
            (calculateWeightedScore opts (scoreFn item query))
            (scoreFn item query)) := by
        cases hitems : items.map (fun item =>
            ScoredContext.mk item
              (calculateWeightedScore opts (scoreFn item query))
              (scoreFn item query)) with
        | nil => simp [normalizeScores]
        | cons a rest => simp [normalizeScores, hstrat]
      rw [hnorm, List.filter_eq_nil_iff]
      intro i hi
      simp only [List.mem_map] at hi
      obtain ⟨item, hitem, rfl⟩ := hi
      rw [hzero item hitem]
      simp only [calculateWeightedScore, zeroFactors]
      norm_num
      linarith
    rw [hfilter]
    simp [List.mergeSort]

theorem C3_rankItems_all_zero_factors_empty_witness :
    ((⟨4/10, 2/10, 15/100, 15/100, 1/10, 2/10,
        .nostrategy⟩ : RankerOptions).normalizationStrategy =
      NormalizationStrategy.nostrategy) ∧
    (0 : ℚ) < (⟨4/10, 2/10, 15/100, 15/100, 1/10, 2/10,
        .nostrategy⟩ : RankerOptions).minScore ∧
    rankItems (fun q => q)
      ⟨4/10, 2/10, 15/100, 15/100, 1/10, 2/10, .nostrategy⟩
      [()] "q" (fun _ _ => zeroFactors) false = [] := by
  refine ⟨rfl, by norm_num, ?_⟩
  exact C3_rankItems_all_zero_factors_empty (fun q => q) _ [()] "q"
    (fun _ _ => zeroFactors) false rfl (by norm_num) (fun i _ => rfl)

/-! ## Context-key service (`src/context/contextKey.ts`)

The service keeps an arena `_contexts : Map<number, Context>`; a `Context`
holds its own value map and a reference to its parent, modelled as the
parent's id resolved through the arena (parents are only ever existing
contexts created earlier). The value type is a parameter `V`. -/

/-- A `Context` node: its own values and its parent. -/
structure CtxData (V : Type) where
  values : List (String × V)
  parent : Option ℕ
deriving DecidableEq

/-- The `ContextKeyService` state: `_lastContextId` and `_contexts`. -/
structure ContextKeyServiceState (V : Type) where
  lastContextId : ℕ
  contexts : List (ℕ × CtxData V)
deriving DecidableEq

/-- A freshly constructed service: the root context has id 1, no parent. -/
def newContextKeyService (V : Type) : ContextKeyServiceState V :=
  ⟨1, [(1, ⟨[], none⟩)]⟩

/-- `ContextKeyService.setContext`: always updates the root context (id 1);
silently does nothing when the root is missing. -/
def setContext {V : Type} (key : String) (value : V)
    (s : ContextKeyServiceState V) : ContextKeyServiceState V :=
  match lookupA s.contexts 1 with
  | some root =>
    let root' := { root with values := setA root.values key value }
    { s with contexts := setA s.contexts 1 root' }
  | none => s

/-- `ContextKeyService.removeContext`: removes from the root context. -/
def removeContext {V : Type} (key : String)
    (s : ContextKeyServiceState V) : ContextKeyServiceState V :=
  match lookupA s.contexts 1 with
  | some root =>
    let root' := { root with values := eraseA root.values key }
    { s with contexts := setA s.contexts 1 root' }
  | none => s

/-- `Context.getValue`: own map first, then the parent chain. The source
follows object references; here the chain is resolved through the arena
with fuel (parents are always earlier-created contexts, so any fuel
exceeding the chain length is enough). -/
def getValueFuel {V : Type} (contexts : List (ℕ × CtxData V)) :
    ℕ → ℕ → String → Option V
  | 0, _, _ => none
  | fuel + 1, id, key =>
    match lookupA contexts id with
    | none => none
    | some ctx =>
      match lookupA ctx.values key with
      | some v => some v
      | none =>
        match ctx.parent with
        | some p => getValueFuel contexts fuel p key
        | none => none

/-- `ContextKeyService.getContextKeyValue`: reads through the root. -/
def getContextKeyValue {V : Type} (key : String)
    (s : ContextKeyServiceState V) : Option V :=
  match lookupA s.contexts 1 with
  | none => none
  | some _ => getValueFuel s.contexts (s.lastContextId + 1) 1 key

/-- `ContextKeyService.createChildContext` (`none` models the thrown
`Unknown context` error of `getContextValuesContainer`). -/
def createChildContext {V : Type} (parentContextId : ℕ)
    (s : ContextKeyServiceState V) :
    Option (ContextKeyServiceState V × ℕ) :=
  match lookupA s.contexts parentContextId with
  | none => none
  | some _ =>
    let id := s.lastContextId + 1
    some (⟨id, setA s.contexts id ⟨[], some parentContextId⟩⟩, id)

/-- `ContextKeyService.disposeContext`: unconditionally deletes the entry,
with no check and no error path. -/
def disposeContext {V : Type} (contextId : ℕ)
    (s : ContextKeyServiceState V) : ContextKeyServiceState V :=
  { s with contexts := eraseA s.contexts contextId }

/-- `ContextKey.set` delegates to `setContext` — it always writes the root
context, never the key's own creation context. -/
def contextKeySet {V : Type} (key : String) (value : V)
    (s : ContextKeyServiceState V) : ContextKeyServiceState V :=
  setContext key value s

/-! ### Claim C8 -/

/-- C8 counterexample: the claim says `disposeContext(1)` raises and the
root survives, so lookups through the root keep succeeding.
`disposeContext` is `this._contexts.delete(contextId)` with no check and no
throwing path: on a fresh service holding `k = "v"`, disposing context 1
returns normally, removes the root, and the subsequent lookup that
previously returned `"v"` now returns `undefined`. -/
theorem C8_counterexample_disposeContext_root :
    getContextKeyValue "k"
        (setContext "k" "v" (newContextKeyService String)) = some "v" ∧
    lookupA (disposeContext 1
        (setContext "k" "v" (newContextKeyService String))).contexts 1 = none ∧
    getContextKeyValue "k" (disposeContext 1
        (setContext "k" "v" (newContextKeyService String))) = none := by
  decide

/-- C8 (amended): `disposeContext` applied to the root id does not raise —
it silently deletes the root context; afterwards every lookup through the
service returns `undefined` and `setContext` is a no-op. Stated for every
service state whose context arena has distinct ids (true of every state the
service can construct). -/
theorem C8_disposeContext_root_silently_breaks_service {V : Type}
    (s : ContextKeyServiceState V) (key : String) (value : V)
    (hnd : (keysA s.contexts).Nodup) :
    lookupA (disposeContext 1 s).contexts 1 = none ∧
    getContextKeyValue key (disposeContext 1 s) = none ∧
    setContext key value (disposeContext 1 s) = disposeContext 1 s := by
  have hroot : lookupA (disposeContext 1 s).contexts 1 = none :=
    lookupA_eraseA_self s.contexts 1 hnd
  refine ⟨hroot, ?_, ?_⟩
  · unfold getContextKeyValue
    rw [hroot]
  · unfold setContext
    rw [hroot]

theorem C8_disposeContext_root_silently_breaks_service_witness :
    (keysA (setContext "k" "v" (newContextKeyService String)).contexts).Nodup ∧
    (lookupA (disposeContext 1
        (setContext "k" "v" (newContextKeyService String))).contexts 1 = none ∧
     getContextKeyValue "k" (disposeContext 1
        (setContext "k" "v" (newContextKeyService String))) = none ∧
     setContext "k" "v" (disposeContext 1
          (setContext "k" "v" (newContextKeyService String))) =
        disposeContext 1 (setContext "k" "v" (newContextKeyService String))) :=
  ⟨by decide, C8_disposeContext_root_silently_breaks_service
    (setContext "k" "v" (newContextKeyService String)) "k" "v" (by decide)⟩

/-! ### Claim C10 -/

/-- A parent chain from a context to the root: `ChainToRoot contexts id l`
says that following parent references from `id` reaches the root (id 1)
and visits exactly the contexts listed in `l` (from `id` to the root). -/
inductive ChainToRoot {V : Type} (contexts : List (ℕ × CtxData V)) :
    ℕ → List ℕ → Prop where
  | root : ∀ ctx, lookupA contexts 1 = some ctx → ChainToRoot contexts 1 [1]
  | step : ∀ id ctx p l, id ≠ 1 → lookupA contexts id = some ctx →
      ctx.parent = some p → ChainToRoot contexts p l →
      ChainToRoot contexts id (id :: l)

/-- C10: `ContextKey.set` (which delegates to `setContext`) mutates only
the root context's value map: every non-root context's arena entry — in
particular its own value map — is unchanged, the root's map gains the
binding, and every context whose chain to the root has the key unshadowed
in all non-root nodes observes the new value purely through parent
fall-through. -/
theorem C10_contextKey_set_only_root {V : Type}
    (s : ContextKeyServiceState V) (key : String) (value : V) :
    (∀ id, id ≠ 1 →
      lookupA (contextKeySet key value s).contexts id =
        lookupA s.contexts id) ∧
    (∀ root, lookupA s.contexts 1 = some root →
      lookupA (contextKeySet key value s).contexts 1 =
        some { root with values := setA root.values key value }) ∧
    (∀ id l, ChainToRoot (contextKeySet key value s).contexts id l →
      (∀ j ∈ l, j ≠ 1 → ∀ ctx,
        lookupA (contextKeySet key value s).contexts j = some ctx →
        lookupA ctx.values key = none) →
      getValueFuel (contextKeySet key value s).contexts l.length id key =
        some value) := by
  refine ⟨?_, ?_, ?_⟩
  · intro id hid
    unfold contextKeySet setContext
    cases lookupA s.contexts 1 with
    | none => rfl
    | some root => exact lookupA_setA_ne _ _ _ _ hid
  · intro root hroot
    unfold contextKeySet setContext
    rw [hroot]
    exact lookupA_setA_self _ _ _
  · intro id l hchain hshadow
    induction hchain with
    | root ctx hctx =>
      show getValueFuel (contextKeySet key value s).contexts 1 1 key = some value
      cases hr : lookupA s.contexts 1 with
      | none =>
        exfalso
        have : contextKeySet key value s = s := by
          unfold contextKeySet setContext
          rw [hr]
        rw [this] at hctx
        rw [hr] at hctx
        exact Option.noConfusion hctx
      | some root =>
        have hroot' : lookupA (contextKeySet key value s).contexts 1 =
            some { root with values := setA root.values key value } := by
          unfold contextKeySet setContext
          rw [hr]
          exact lookupA_setA_self _ _ _
        unfold getValueFuel
        rw [hroot']
        simp only [lookupA_setA_self]
    | step id ctx p l hid hctx hparent _ ih =>
      have hown : lookupA ctx.values key = none :=
        hshadow id (List.mem_cons_self _ _) hid ctx hctx
      have ih' := ih (fun j hj => hshadow j (List.mem_cons_of_mem _ hj))
      show getValueFuel (contextKeySet key value s).contexts (l.length + 1)
        id key = some value
      simp only [getValueFuel, hctx, hown, hparent]
      exact ih'

/-- The service with a root and one child, before the `set` call. -/
def exC10Pre : ContextKeyServiceState String :=
  ⟨2, [(1, ⟨[], none⟩), (2, ⟨[], some 1⟩)]⟩

/-- The service after `contextKeySet "k" "v"`. -/
def exC10Post : ContextKeyServiceState String :=
  contextKeySet "k" "v" exC10Pre

theorem C10_contextKey_set_only_root_witness :
    createChildContext 1 (newContextKeyService String) = some (exC10Pre, 2) ∧
    lookupA exC10Post.contexts 2 = some ⟨[], some 1⟩ ∧
    getValueFuel exC10Post.contexts 2 2 "k" = some "v" := by
  refine ⟨by decide, by decide, ?_⟩
  have hlk2 : lookupA exC10Post.contexts 2 = some ⟨[], some 1⟩ := by decide
  have hlk1 : lookupA exC10Post.contexts 1 = some ⟨[("k", "v")], none⟩ := by
    decide
  have hchain : ChainToRoot exC10Post.contexts 2 [2, 1] :=
    ChainToRoot.step 2 ⟨[], some 1⟩ 1 [1] (by decide) hlk2 rfl
      (ChainToRoot.root ⟨[("k", "v")], none⟩ hlk1)
  have hshadow : ∀ j ∈ [2, 1], j ≠ 1 → ∀ ctx,
      lookupA exC10Post.contexts j = some ctx →
      lookupA ctx.values "k" = none := by
    intro j hj hj1 ctx hctx
    rcases List.mem_cons.mp hj with h2 | h1
    · subst h2
      rw [hlk2] at hctx
      cases hctx
      rfl
    · rw [List.mem_singleton] at h1
      exact absurd h1 hj1
  exact (C10_contextKey_set_only_root exC10Pre "k" "v").2.2 2 [2, 1]
    hchain hshadow

/-! ## Fixed-size chunking (`src/chunking/chunkingStrategy.ts`)

`FixedSizeChunkingStrategy.chunk` runs
`while (currentPosition < content.length)`, computing an end position
(clamped to the content length, then possibly moved to a natural break
found within ±100 characters) and then setting
`currentPosition = endPosition - overlap`. The position update of one loop
iteration is modelled below; positions are integers as in JS. -/

/-- Configuration of the fixed-size strategy (after defaulting:
`maxChunkSize`, `minChunkSize || 100`, `overlap || 0`). -/
structure FixedChunkCfg where
  maxChunkSize : ℤ
  minChunkSize : ℤ
  overlap : ℤ
deriving DecidableEq

/-- `String.prototype.substring`: clamps both arguments into `[0, length]`
and swaps them when out of order. -/
def jsSubstring (cs : List Char) (a b : ℤ) : List Char :=
  let n : ℤ := cs.length
  let a' := max 0 (min a n)
  let b' := max 0 (min b n)
  let lo := min a' b'
  let hi := max a' b'
  (cs.drop lo.toNat).take (hi - lo).toNat

/-- `String.prototype.lastIndexOf` for a non-empty plain pattern: the
largest index at which the pattern occurs, `-1` if it does not occur. -/
def lastIndexOfA (pattern text : List Char) : ℤ :=
  match ((List.range (text.length + 1)).filter
      (fun i => pattern.isPrefixOf (text.drop i))).getLast? with
  | some i => (i : ℤ)
  | none => -1

/-- The `for (const breakpoint of breakpoints)` loop: the first breakpoint
found in the search window and lying past `currentPosition + minChunkSize`
determines the new end position. -/
def findBreakEnd (cfg : FixedChunkCfg) (content : List Char)
    (currentPosition endPosition : ℤ) : List (List Char) → Option ℤ
  | [] => none
  | bp :: rest =>
    let searchStart := max (endPosition - 100)
      (currentPosition + cfg.minChunkSize)
    let searchEnd := min (endPosition + 100) (content.length : ℤ)
    let searchText := jsSubstring content searchStart searchEnd
    let breakpointIndex := lastIndexOfA bp searchText
    if breakpointIndex ≠ -1 ∧
        currentPosition + cfg.minChunkSize < searchStart + breakpointIndex then
      some (searchStart + breakpointIndex + bp.length)
    else
      findBreakEnd cfg content currentPosition endPosition rest

/-- The breakpoint preference order `['\n\n', '\n', '. ', ', ', ' ']`. -/
def fixedBreakpoints : List (List Char) :=
  [['\n', '\n'], ['\n'], ['.', ' '], [',', ' '], [' ']]

/-- One iteration of the chunking loop of `FixedSizeChunkingStrategy.chunk`:
the next value of `currentPosition`. -/
def fixedChunkNextPos (cfg : FixedChunkCfg) (content : List Char)
    (currentPosition : ℤ) : ℤ :=
  let endPosition0 := min (currentPosition + cfg.maxChunkSize)
    (content.length : ℤ)
  let endPosition :=
    if endPosition0 < (content.length : ℤ) then
      match findBreakEnd cfg content currentPosition endPosition0
          fixedBreakpoints with
      | some e => e
      | none => endPosition0
    else endPosition0
  endPosition - cfg.overlap

/-! ### Claim C9 -/

/-- C9: the claim says that under the recommended constraint
`0 ≤ overlap < minChunkSize ≤ maxChunkSize` every iteration of the chunking
loop strictly increases the current position, so `chunk` terminates. With
`maxChunkSize = 1000`, `minChunkSize = 100`, `overlap = 50` (satisfying the
constraint) and 1500 characters of content, the loop runs: position 0 →
950 → 1450 → 1450 → … : once `currentPosition + maxChunkSize` reaches past
the end, `endPosition` clamps to `content.length`, the breakpoint search is
skipped, and the update `currentPosition = content.length - overlap` maps
the position to itself while it is still `< content.length` — the loop
never terminates (emitting the same final chunk forever). -/
theorem C9_fixed_chunking_loop_stalls_with_overlap :
    ((0 : ℤ) ≤ 50 ∧ (50 : ℤ) < 100 ∧ (100 : ℤ) ≤ 1000) ∧
    fixedChunkNextPos ⟨1000, 100, 50⟩ (List.replicate 1500 'a') 0 = 950 ∧
    fixedChunkNextPos ⟨1000, 100, 50⟩ (List.replicate 1500 'a') 950 = 1450 ∧
    fixedChunkNextPos ⟨1000, 100, 50⟩ (List.replicate 1500 'a') 1450 = 1450 ∧
    (1450 : ℤ) < 1500 := by
  set_option maxRecDepth 100000 in decide

end VoidIndexing
